import Mathlib

/-!
Verification of the FreeCore kernel heap allocator (src/kernel/src/mm/kmalloc.c)
and the read-only ext4 driver (ext4.c) against the repository specification.

The allocator operates on a fixed 4 MiB arena.  We embed the arena as a map
from byte offsets to block headers together with a separate map for payload
bytes; pointers are byte offsets from the arena base (`Option Nat`, with
`none` playing the role of the C `NULL` pointer).  The block headers and the
payload bytes live in one array in C; the split model is adequate here because
the allocator itself never reads a header from a payload location on the paths
the claims exercise, and payload writes performed by the modelled operations
(`kzalloc`'s memset, `krealloc`'s memcpy) target payload regions only.

`size_t` arithmetic is modelled as `Nat` with an explicit `% 2^64` exactly
where the C code can overflow (the request-size rounding in `kmalloc`, the
`heap_used` counter updates).
-/

namespace FreeCore

/-- KERNEL_HEAP_SIZE: size of the kernel heap (4 MB). -/
def KERNEL_HEAP_SIZE : Nat := 4 * 1024 * 1024

/-- ALLOC_MAGIC: magic number for validation. -/
def ALLOC_MAGIC : Nat := 0xABCD1234

/-- sizeof(alloc_header_t) on x86-64: size_t (8) + uint32 (4) + bool (1) padded to 16. -/
def HDR_SIZE : Nat := 16

/-- MIN_ALLOC_SIZE = sizeof(alloc_header_t) + 16. -/
def MIN_ALLOC_SIZE : Nat := HDR_SIZE + 16

/-- Modulus of `size_t` / `uintptr_t` arithmetic. -/
def U64 : Nat := 2 ^ 64

/-- alloc_header_t: allocation header (size including header, magic tag, used flag). -/
structure AllocHeader where
  size : Nat
  magic : Nat
  used : Bool
deriving DecidableEq

/-- The allocator state: header map, payload byte map, the `heap_initialized`
flag and the `heap_used` counter. -/
structure Heap where
  hdrs : Nat → AllocHeader
  data : Nat → Nat
  initialized : Bool
  heap_used : Nat

/-- Pointwise update of a map. -/
def upd {α : Type} (f : Nat → α) (o : Nat) (v : α) : Nat → α :=
  fun x => if x = o then v else f x

/-- memcpy(dst, src, n) on the payload byte map (non-overlapping use only,
as in the C source). -/
def memcpy (data : Nat → Nat) (dst src n : Nat) : Nat → Nat :=
  fun i => if dst ≤ i ∧ i < dst + n then data (src + (i - dst)) else data i

/-- memset(dst, v, n) on the payload byte map. -/
def memset (data : Nat → Nat) (dst v n : Nat) : Nat → Nat :=
  fun i => if dst ≤ i ∧ i < dst + n then v else data i

/-- kmalloc_init: no-op when already initialized, otherwise zeroes the arena
(memset 0 makes every header read as `⟨0, 0, false⟩`) and installs one free
block spanning the whole arena. -/
def kmalloc_init (h : Heap) : Heap :=
  if h.initialized then h
  else
    { hdrs := upd (fun _ => ⟨0, 0, false⟩) 0 ⟨KERNEL_HEAP_SIZE, ALLOC_MAGIC, false⟩
      data := fun _ => 0
      initialized := true
      heap_used := 0 }

/-- find_free_block: first-fit walk from the arena base.  The C loop advances
by `current->size`; a zero `size` would make the C loop spin forever, so the
model returns `none` there (the case is unreachable on the walkable heaps the
claims are about).  Structural fuel keeps the definition kernel-reducible; the
wrapper below supplies fuel larger than any possible number of blocks. -/
def find_free_blockF : Nat → (Nat → AllocHeader) → Nat → Nat → Option Nat
  | 0, _, _, _ => none
  | fuel + 1, hdrs, size, off =>
    if KERNEL_HEAP_SIZE ≤ off then none
    else if (hdrs off).magic ≠ ALLOC_MAGIC then none
    else if (hdrs off).used = false ∧ size ≤ (hdrs off).size then some off
    else if (hdrs off).size = 0 then none
    else find_free_blockF fuel hdrs size (off + (hdrs off).size)

/-- find_free_block with enough fuel to cover any terminating C execution. -/
def find_free_block (hdrs : Nat → AllocHeader) (size : Nat) : Option Nat :=
  find_free_blockF (KERNEL_HEAP_SIZE + 1) hdrs size 0

/-- split_block: split the found block when the remainder would be at least
MIN_ALLOC_SIZE, then mark it used.  The writes follow the C statement order
(new block header first, then the original block's size, then `used`). -/
def split_block (hdrs : Nat → AllocHeader) (b : Nat) (size : Nat) : Nat → AllocHeader :=
  let hdrs1 :=
    if size + MIN_ALLOC_SIZE ≤ (hdrs b).size then
      let hdrs2 := upd hdrs (b + size) ⟨(hdrs b).size - size, ALLOC_MAGIC, false⟩
      upd hdrs2 b { hdrs2 b with size := size }
    else hdrs
  upd hdrs1 b { hdrs1 b with used := true }

/-- kmalloc: 16-byte size rounding (with the `size_t` wrap the C code has),
first-fit search, split, `heap_used` update, returns the payload offset. -/
def kmalloc (h : Heap) (size : Nat) : Option Nat × Heap :=
  if size = 0 then (none, h)
  else
    let h1 := kmalloc_init h
    let asize := (size + 15) % U64 / 16 * 16
    let total_size := (asize + HDR_SIZE) % U64
    match find_free_block h1.hdrs total_size with
    | none => (none, h1)
    | some b =>
      let hdrs2 := split_block h1.hdrs b total_size
      (some (b + HDR_SIZE),
       { h1 with hdrs := hdrs2, heap_used := (h1.heap_used + (hdrs2 b).size) % U64 })

/-- kzalloc: kmalloc followed by zeroing `size` payload bytes. -/
def kzalloc (h : Heap) (size : Nat) : Option Nat × Heap :=
  match kmalloc h size with
  | (none, h1) => (none, h1)
  | (some p, h1) => (some p, { h1 with data := memset h1.data p 0 size })

/-- validate_block: bounds check against the arena, magic check, size sanity.
The "header below the arena base" half of the C bounds check is performed by
the callers (`p < HDR_SIZE` below), since offsets are unsigned here. -/
def validate_block (hdrs : Nat → AllocHeader) (off : Nat) : Bool :=
  decide (off < KERNEL_HEAP_SIZE) &&
  decide ((hdrs off).magic = ALLOC_MAGIC) &&
  decide (HDR_SIZE ≤ (hdrs off).size) &&
  decide (off + (hdrs off).size ≤ KERNEL_HEAP_SIZE)

/-- merge_blocks: absorb the immediately following block when it validates and
is free; the absorbed header's magic is zeroed.  Both sizes are at most
KERNEL_HEAP_SIZE whenever this is reached from `kfree` (both blocks validated),
so the C `size_t` addition cannot wrap. -/
def merge_blocks (hdrs : Nat → AllocHeader) (b : Nat) : Nat → AllocHeader :=
  let nxt := b + (hdrs b).size
  if KERNEL_HEAP_SIZE ≤ nxt then hdrs
  else if validate_block hdrs nxt = false then hdrs
  else if (hdrs nxt).used = false then
    let hdrs1 := upd hdrs b { hdrs b with size := (hdrs b).size + (hdrs nxt).size }
    upd hdrs1 nxt { hdrs1 nxt with magic := 0 }
  else hdrs

/-- Outcome of a kfree call: `ok` frees, the others report and abort. -/
inductive KfreeResult where
  | ok
  | noop
  | invalid
  | doubleFree
deriving DecidableEq

/-- Wrapping subtraction `a - b` in `size_t` (assuming `a < U64`). -/
def usub64 (a b : Nat) : Nat := (a + (U64 - b % U64)) % U64

/-- kfree: validates, rejects double frees, marks free, updates `heap_used`
and merges with the following block.  `p < HDR_SIZE` corresponds to the header
address falling below the arena base. -/
def kfree (h : Heap) (ptr : Option Nat) : KfreeResult × Heap :=
  match ptr with
  | none => (.noop, h)
  | some p =>
    if h.initialized = false then (.noop, h)
    else if p < HDR_SIZE then (.invalid, h)
    else
      let b := p - HDR_SIZE
      if validate_block h.hdrs b = false then (.invalid, h)
      else if (h.hdrs b).used = false then (.doubleFree, h)
      else
        let hdrs1 := upd h.hdrs b { h.hdrs b with used := false }
        (.ok, { h with hdrs := merge_blocks hdrs1 b
                       heap_used := usub64 h.heap_used (h.hdrs b).size })

/-- krealloc: null behaves as kmalloc; size 0 frees; a request that fits the
current payload returns the pointer unchanged; otherwise allocate, copy
`curr_size` payload bytes, free the old block. -/
def krealloc (h : Heap) (ptr : Option Nat) (size : Nat) : Option Nat × Heap :=
  match ptr with
  | none => kmalloc h size
  | some p =>
    if size = 0 then (none, (kfree h (some p)).2)
    else if p < HDR_SIZE then (none, h)
    else
      let b := p - HDR_SIZE
      if validate_block h.hdrs b = false then (none, h)
      else
        let curr_size := (h.hdrs b).size - HDR_SIZE
        if size ≤ curr_size then (some p, h)
        else
          match kmalloc h size with
          | (none, h1) => (none, h1)
          | (some newp, h1) =>
            let h2 := { h1 with data := memcpy h1.data newp p curr_size }
            (some newp, (kfree h2 (some p)).2)

end FreeCore

namespace FreeCore

/-! ### The arena walk

`HeapChain hdrs off offs` says: starting at offset `off` and repeatedly
stepping by the current header's `size` field visits exactly the offsets in
`offs` and lands exactly on the arena end.  This is the walk described by the
specification's heap invariant (contiguous blocks, no gaps, sizes summing to
the remaining arena). -/

inductive HeapChain (hdrs : Nat → AllocHeader) : Nat → List Nat → Prop where
  | nil : HeapChain hdrs KERNEL_HEAP_SIZE []
  | cons {off : Nat} {rest : List Nat} :
      off < KERNEL_HEAP_SIZE → 0 < (hdrs off).size →
      HeapChain hdrs (off + (hdrs off).size) rest →
      HeapChain hdrs off (off :: rest)

/-- Executable form of the walk (fuel-based so that it reduces in the kernel). -/
def walkBlocksF : Nat → (Nat → AllocHeader) → Nat → Option (List Nat)
  | 0, _, _ => none
  | fuel + 1, hdrs, off =>
    if off = KERNEL_HEAP_SIZE then some []
    else if KERNEL_HEAP_SIZE < off then none
    else if (hdrs off).size = 0 then none
    else
      match walkBlocksF fuel hdrs (off + (hdrs off).size) with
      | some rest => some (off :: rest)
      | none => none

/-- The full arena walk from the base. -/
def walkBlocks (hdrs : Nat → AllocHeader) : Option (List Nat) :=
  walkBlocksF (KERNEL_HEAP_SIZE + 1) hdrs 0

theorem heapChain_of_walkF {fuel : Nat} {hdrs : Nat → AllocHeader} {off : Nat}
    {offs : List Nat} (h : walkBlocksF fuel hdrs off = some offs) :
    HeapChain hdrs off offs := by
  induction fuel generalizing off offs with
  | zero => simp [walkBlocksF] at h
  | succ fuel ih =>
    rw [walkBlocksF] at h
    by_cases h1 : off = KERNEL_HEAP_SIZE
    · simp [h1] at h
      subst h1
      subst h
      exact HeapChain.nil
    · simp only [h1, if_false] at h
      by_cases h2 : KERNEL_HEAP_SIZE < off
      · simp [h2] at h
      · simp only [h2, if_false] at h
        by_cases h3 : (hdrs off).size = 0
        · simp [h3] at h
        · simp only [h3, if_false] at h
          cases hrec : walkBlocksF fuel hdrs (off + (hdrs off).size) with
          | none => rw [hrec] at h; simp at h
          | some rest =>
            rw [hrec] at h
            simp at h
            rw [← h]
            exact HeapChain.cons (by omega) (by omega) (ih hrec)

theorem heapChain_of_walk {hdrs : Nat → AllocHeader} {offs : List Nat}
    (h : walkBlocks hdrs = some offs) : HeapChain hdrs 0 offs :=
  heapChain_of_walkF h

theorem heapChain_start_le {hdrs : Nat → AllocHeader} {off : Nat} {offs : List Nat}
    (h : HeapChain hdrs off offs) : off ≤ KERNEL_HEAP_SIZE := by
  cases h with
  | nil => exact Nat.le_refl _
  | cons hlt _ _ => omega

/-- Every walk offset lies between the start of the walk and the arena end,
and its block fits in the arena. -/
theorem heapChain_mem_bounds {hdrs : Nat → AllocHeader} {off : Nat} {offs : List Nat}
    (h : HeapChain hdrs off offs) :
    ∀ o ∈ offs, off ≤ o ∧ o < KERNEL_HEAP_SIZE ∧ o + (hdrs o).size ≤ KERNEL_HEAP_SIZE := by
  induction h with
  | nil => intro o ho; simp at ho
  | cons hlt hpos htail ih =>
    intro o ho
    rcases List.mem_cons.mp ho with rfl | ho
    · have := heapChain_start_le htail
      exact ⟨Nat.le_refl _, hlt, this⟩
    · have := ih o ho
      omega

/-- Decomposition of a walk at any of its members. -/
theorem heapChain_decomp {hdrs : Nat → AllocHeader} {off : Nat} {offs : List Nat}
    (h : HeapChain hdrs off offs) {o : Nat} (ho : o ∈ offs) :
    ∃ pre rest, offs = pre ++ o :: rest ∧ HeapChain hdrs o (o :: rest) := by
  induction h with
  | nil => simp at ho
  | cons hlt hpos htail ih =>
    rename_i start rest0
    rcases List.mem_cons.mp ho with rfl | ho
    · exact ⟨[], rest0, rfl, HeapChain.cons hlt hpos htail⟩
    · obtain ⟨pre, rest, heq, hchain⟩ := ih ho
      exact ⟨start :: pre, rest, by rw [heq]; rfl, hchain⟩

/-- Distinct walk members occupy disjoint block extents. -/
theorem heapChain_disjoint {hdrs : Nat → AllocHeader} {off : Nat} {offs : List Nat}
    (h : HeapChain hdrs off offs) {a b : Nat} (ha : a ∈ offs) (hb : b ∈ offs)
    (hab : a < b) : a + (hdrs a).size ≤ b := by
  induction h with
  | nil => simp at ha
  | cons hlt hpos htail ih =>
    rename_i start rest0
    rcases List.mem_cons.mp ha with ha1 | ha2
    · subst ha1
      rcases List.mem_cons.mp hb with hb1 | hb2
      · omega
      · exact (heapChain_mem_bounds htail b hb2).1
    · rcases List.mem_cons.mp hb with hb1 | hb2
      · subst hb1
        have := (heapChain_mem_bounds htail a ha2).1
        omega
      · exact ih ha2 hb2

/-- The walk only depends on the `size` fields of the visited headers. -/
theorem heapChain_congr {hdrs hdrs2 : Nat → AllocHeader} {off : Nat} {offs : List Nat}
    (h : HeapChain hdrs off offs)
    (hagree : ∀ o ∈ offs, (hdrs2 o).size = (hdrs o).size) :
    HeapChain hdrs2 off offs := by
  induction h with
  | nil => exact HeapChain.nil
  | cons hlt hpos htail ih =>
    rename_i start rest0
    have hs : (hdrs2 start).size = (hdrs start).size := hagree start (by simp)
    refine HeapChain.cons hlt (by omega) ?_
    rw [hs]
    exact ih fun o ho => hagree o (by simp [ho])

/-- The walk is deterministic. -/
theorem heapChain_det {hdrs : Nat → AllocHeader} {off : Nat} {offs offs2 : List Nat}
    (h : HeapChain hdrs off offs) (h2 : HeapChain hdrs off offs2) : offs = offs2 := by
  induction h generalizing offs2 with
  | nil =>
    cases h2 with
    | nil => rfl
    | cons hlt _ _ => omega
  | cons hlt hpos htail ih =>
    cases h2 with
    | nil => omega
    | cons hlt2 hpos2 htail2 => rw [ih htail2]

/-- The visited block sizes sum exactly to the remaining arena. -/
theorem heapChain_sum {hdrs : Nat → AllocHeader} {off : Nat} {offs : List Nat}
    (h : HeapChain hdrs off offs) :
    off + (offs.map fun o => (hdrs o).size).sum = KERNEL_HEAP_SIZE := by
  induction h with
  | nil => simp
  | cons hlt hpos htail ih => simp only [List.map_cons, List.sum_cons]; omega

end FreeCore

namespace FreeCore

/-! ### The heap invariant -/

/-- The specification's heap invariant with the walk made explicit: the walk
from the arena base visits exactly `offs` and ends exactly at the arena end;
every visited header carries the valid magic and an extent of at least a
header; every header off the walk (in particular every merged-away header)
carries an invalid magic. -/
def InvOn (h : Heap) (offs : List Nat) : Prop :=
  HeapChain h.hdrs 0 offs ∧
  (∀ o ∈ offs, (h.hdrs o).magic = ALLOC_MAGIC ∧ HDR_SIZE ≤ (h.hdrs o).size) ∧
  (∀ o : Nat, o ∉ offs → (h.hdrs o).magic ≠ ALLOC_MAGIC)

/-- The heap invariant. -/
def Inv (h : Heap) : Prop := ∃ offs, InvOn h offs

theorem heapChain_pairwise {hdrs : Nat → AllocHeader} {off : Nat} {offs : List Nat}
    (h : HeapChain hdrs off offs) : offs.Pairwise (· < ·) := by
  induction h with
  | nil => exact List.Pairwise.nil
  | cons hlt hpos htail ih =>
    refine List.Pairwise.cons ?_ ih
    intro o ho
    have := (heapChain_mem_bounds htail o ho).1
    omega

theorem heapChain_nodup {hdrs : Nat → AllocHeader} {off : Nat} {offs : List Nat}
    (h : HeapChain hdrs off offs) : offs.Nodup :=
  (heapChain_pairwise h).imp Nat.ne_of_lt

theorem validate_block_iff {hdrs : Nat → AllocHeader} {off : Nat} :
    validate_block hdrs off = true ↔
      off < KERNEL_HEAP_SIZE ∧ (hdrs off).magic = ALLOC_MAGIC ∧
      HDR_SIZE ≤ (hdrs off).size ∧ off + (hdrs off).size ≤ KERNEL_HEAP_SIZE := by
  simp [validate_block, and_assoc]

/-- Pointwise description of `split_block` in the splitting case. -/
theorem split_block_pos {hdrs : Nat → AllocHeader} {b t : Nat} (ht : 0 < t)
    (hcond : t + MIN_ALLOC_SIZE ≤ (hdrs b).size) (x : Nat) :
    split_block hdrs b t x =
      if x = b then ⟨t, (hdrs b).magic, true⟩
      else if x = b + t then ⟨(hdrs b).size - t, ALLOC_MAGIC, false⟩
      else hdrs x := by
  have hbt : ¬(b = b + t) := by omega
  by_cases hx : x = b
  · subst hx
    simp [split_block, upd, hcond, hbt]
  · by_cases hx2 : x = b + t
    · subst hx2
      simp [split_block, upd, hcond, hbt, hx]
    · simp [split_block, upd, hcond, hx, hx2]

/-- Pointwise description of `split_block` when the block is not split. -/
theorem split_block_nosplit {hdrs : Nat → AllocHeader} {b t : Nat}
    (hcond : ¬(t + MIN_ALLOC_SIZE ≤ (hdrs b).size)) (x : Nat) :
    split_block hdrs b t x =
      if x = b then { hdrs b with used := true } else hdrs x := by
  by_cases hx : x = b
  · subst hx
    simp [split_block, upd, hcond]
  · simp [split_block, upd, hcond, hx]

theorem merge_blocks_noop_end {hdrs : Nat → AllocHeader} {b : Nat}
    (h : KERNEL_HEAP_SIZE ≤ b + (hdrs b).size) : merge_blocks hdrs b = hdrs := by
  unfold merge_blocks
  simp [h]

theorem merge_blocks_noop_invalid {hdrs : Nat → AllocHeader} {b : Nat}
    (h1 : b + (hdrs b).size < KERNEL_HEAP_SIZE)
    (h2 : validate_block hdrs (b + (hdrs b).size) = false) : merge_blocks hdrs b = hdrs := by
  unfold merge_blocks
  simp [Nat.not_le.mpr h1, h2]

theorem merge_blocks_noop_used {hdrs : Nat → AllocHeader} {b : Nat}
    (h1 : b + (hdrs b).size < KERNEL_HEAP_SIZE)
    (h2 : validate_block hdrs (b + (hdrs b).size) = true)
    (h3 : (hdrs (b + (hdrs b).size)).used = true) : merge_blocks hdrs b = hdrs := by
  unfold merge_blocks
  simp [Nat.not_le.mpr h1, h2, h3]

/-- Pointwise description of `merge_blocks` in the absorbing case. -/
theorem merge_blocks_merge {hdrs : Nat → AllocHeader} {b : Nat}
    (h1 : b + (hdrs b).size < KERNEL_HEAP_SIZE)
    (h2 : validate_block hdrs (b + (hdrs b).size) = true)
    (h3 : (hdrs (b + (hdrs b).size)).used = false) (x : Nat) :
    merge_blocks hdrs b x =
      if x = b then
        { hdrs b with size := (hdrs b).size + (hdrs (b + (hdrs b).size)).size }
      else if x = b + (hdrs b).size then { hdrs (b + (hdrs b).size) with magic := 0 }
      else hdrs x := by
  have hszpos : (hdrs b).size ≠ 0 := by
    intro hz
    have hle := (validate_block_iff.mp h2).2.2.1
    rw [hz, Nat.add_zero, hz] at hle
    simp [HDR_SIZE] at hle
  have hsz : 0 < (hdrs b).size := Nat.pos_of_ne_zero hszpos
  have hbn : ¬(b = b + (hdrs b).size) := by omega
  have hbn2 : ¬(b + (hdrs b).size = b) := by omega
  have hnle : ¬(KERNEL_HEAP_SIZE ≤ b + (hdrs b).size) := Nat.not_le.mpr h1
  by_cases hx : x = b
  · subst hx
    simp [merge_blocks, upd, hnle, h2, h3, hbn]
  · by_cases hx2 : x = b + (hdrs b).size
    · subst hx2
      simp [merge_blocks, upd, hnle, h2, h3, hbn2]
    · simp [merge_blocks, upd, hnle, h2, h3, hx, hx2]

/-- Soundness of the first-fit search: any hit is a free, large-enough block
on the walk. -/
theorem find_free_blockF_mem {fuel : Nat} {hdrs : Nat → AllocHeader}
    {need off b : Nat} {offs : List Nat}
    (hchain : HeapChain hdrs off offs)
    (hmagic : ∀ o ∈ offs, (hdrs o).magic = ALLOC_MAGIC)
    (h : find_free_blockF fuel hdrs need off = some b) :
    b ∈ offs ∧ (hdrs b).used = false ∧ need ≤ (hdrs b).size := by
  induction fuel generalizing off offs with
  | zero => simp [find_free_blockF] at h
  | succ fuel ih =>
    rw [find_free_blockF] at h
    cases hchain with
    | nil => simp at h
    | cons hlt hpos htail =>
      rename_i rest
      have hstart : (hdrs off).magic = ALLOC_MAGIC := hmagic off (List.mem_cons_self _ _)
      rw [if_neg (by omega), if_neg (by simp [hstart])] at h
      by_cases hcond : (hdrs off).used = false ∧ need ≤ (hdrs off).size
      · rw [if_pos hcond] at h
        injection h with h
        subst h
        exact ⟨List.mem_cons_self _ _, hcond.1, hcond.2⟩
      · rw [if_neg hcond, if_neg (by omega)] at h
        have hrec := ih htail (fun o ho => hmagic o (List.mem_cons_of_mem _ ho)) h
        exact ⟨List.mem_cons_of_mem _ hrec.1, hrec.2⟩

/-- Splitting a walk block yields the walk with the new block inserted. -/
theorem heapChain_split {hdrs hdrs2 : Nat → AllocHeader} {off b t : Nat}
    {pre rest : List Nat}
    (h : HeapChain hdrs off (pre ++ b :: rest))
    (ht : 0 < t) (htb : t < (hdrs b).size)
    (h2b : (hdrs2 b).size = t)
    (h2bt : (hdrs2 (b + t)).size = (hdrs b).size - t)
    (hother : ∀ x, x ≠ b → x ≠ b + t → (hdrs2 x).size = (hdrs x).size) :
    HeapChain hdrs2 off (pre ++ b :: (b + t) :: rest) := by
  induction pre generalizing off with
  | nil =>
    simp only [List.nil_append] at h ⊢
    cases h with
    | cons hlt hpos htail =>
      refine HeapChain.cons hlt (by omega) ?_
      rw [h2b]
      have hend := heapChain_start_le htail
      refine HeapChain.cons (by omega) (by omega) ?_
      rw [h2bt]
      have harith : b + t + ((hdrs b).size - t) = b + (hdrs b).size := by omega
      rw [harith]
      refine heapChain_congr htail ?_
      intro o ho
      have hb := (heapChain_mem_bounds htail o ho).1
      exact hother o (by omega) (by omega)
  | cons p pre ih =>
    simp only [List.cons_append] at h ⊢
    cases h with
    | cons hlt hpos htail =>
      have hbmem : b ∈ pre ++ b :: rest := by simp
      have hple : p + (hdrs p).size ≤ b := (heapChain_mem_bounds htail b hbmem).1
      have hpb : p ≠ b := by omega
      have hpbt : p ≠ b + t := by omega
      have hps : (hdrs2 p).size = (hdrs p).size := hother p hpb hpbt
      refine HeapChain.cons hlt (by omega) ?_
      rw [hps]
      exact ih htail

/-- Merging a walk block with its successor removes the successor from the
walk. -/
theorem heapChain_merge {hdrs hdrs2 : Nat → AllocHeader} {off b : Nat}
    {pre rest : List Nat}
    (h : HeapChain hdrs off (pre ++ b :: (b + (hdrs b).size) :: rest))
    (h2b : (hdrs2 b).size = (hdrs b).size + (hdrs (b + (hdrs b).size)).size)
    (hother : ∀ x, x ≠ b → (hdrs2 x).size = (hdrs x).size) :
    HeapChain hdrs2 off (pre ++ b :: rest) := by
  induction pre generalizing off with
  | nil =>
    simp only [List.nil_append] at h ⊢
    cases h with
    | cons hlt hpos htail =>
      generalize hc : b + (hdrs b).size = c at htail
      cases htail with
      | cons hlt2 hpos2 htail2 =>
        refine HeapChain.cons hlt (by omega) ?_
        rw [h2b]
        have harith : b + ((hdrs b).size + (hdrs (b + (hdrs b).size)).size)
            = c + (hdrs c).size := by rw [hc]; omega
        rw [harith]
        refine heapChain_congr htail2 ?_
        intro o ho
        have hb := (heapChain_mem_bounds htail2 o ho).1
        exact hother o (by omega)
  | cons p pre ih =>
    simp only [List.cons_append] at h ⊢
    cases h with
    | cons hlt hpos htail =>
      have hbmem : b ∈ pre ++ b :: (b + (hdrs b).size) :: rest := by simp
      have hple : p + (hdrs p).size ≤ b := (heapChain_mem_bounds htail b hbmem).1
      have hpb : p ≠ b := by omega
      have hps : (hdrs2 p).size = (hdrs p).size := hother p hpb
      refine HeapChain.cons hlt (by omega) ?_
      rw [hps]
      exact ih htail

end FreeCore

namespace FreeCore

theorem kmalloc_init_of_initialized {h : Heap} (hinit : h.initialized = true) :
    kmalloc_init h = h := by
  simp [kmalloc_init, hinit]

/-- After a fresh initialization the walk is the single free block. -/
theorem invOn_fresh {h : Heap} (hinit : h.initialized = false) :
    InvOn (kmalloc_init h) [0] := by
  have hh : (kmalloc_init h).hdrs
      = upd (fun _ => ⟨0, 0, false⟩) 0 ⟨KERNEL_HEAP_SIZE, ALLOC_MAGIC, false⟩ := by
    simp [kmalloc_init, hinit]
  refine ⟨?_, ?_, ?_⟩
  · rw [hh]
    refine HeapChain.cons (by simp [KERNEL_HEAP_SIZE]) (by simp [upd, KERNEL_HEAP_SIZE]) ?_
    have hsz : (0:Nat) + (upd (fun _ => (⟨0, 0, false⟩ : AllocHeader)) 0
        ⟨KERNEL_HEAP_SIZE, ALLOC_MAGIC, false⟩ 0).size = KERNEL_HEAP_SIZE := by
      simp [upd]
    rw [hsz]
    exact HeapChain.nil
  · intro o ho
    simp only [List.mem_singleton] at ho
    subst ho
    rw [hh]
    refine ⟨by simp [upd], by simp [upd, HDR_SIZE, KERNEL_HEAP_SIZE]⟩
  · intro o ho
    simp only [List.mem_singleton] at ho
    rw [hh]
    simp only [upd, if_neg ho]
    simp [ALLOC_MAGIC]

/-- A block offset whose header passes validation is on the walk of an
invariant heap (the off-walk headers all carry an invalid magic). -/
theorem mem_of_validate {h : Heap} {offs : List Nat} {b : Nat}
    (hI : InvOn h offs) (hv : validate_block h.hdrs b = true) : b ∈ offs := by
  by_contra hmem
  exact hI.2.2 b hmem (validate_block_iff.mp hv).2.1

/-- Walk members other than a given member lie entirely outside its extent. -/
theorem mem_outside_extent {hdrs : Nat → AllocHeader} {offs : List Nat}
    (hchain : HeapChain hdrs 0 offs) {b o : Nat} (hb : b ∈ offs) (ho : o ∈ offs)
    (hne : o ≠ b) : o < b ∨ b + (hdrs b).size ≤ o := by
  rcases Nat.lt_or_ge o b with hlt | hge
  · exact Or.inl hlt
  · rcases Nat.eq_or_lt_of_le hge with he | hlt2
    · omega
    · exact Or.inr (heapChain_disjoint hchain hb ho hlt2)

/-- Detailed specification of `kmalloc` on an invariant heap, for request
sizes whose 16-byte rounding plus header does not wrap `size_t`. -/
theorem kmalloc_spec {h : Heap} {offs : List Nat} {n : Nat}
    (hI : InvOn h offs) (hinit : h.initialized = true)
    (hsafe : (n + 15) % U64 / 16 * 16 + HDR_SIZE < U64) (hn : n ≠ 0) :
    ((kmalloc h n).1 = none → (kmalloc h n).2 = h) ∧
    (∀ p, (kmalloc h n).1 = some p →
      ∃ b offs1,
        p = b + HDR_SIZE ∧ b ∈ offs ∧ (h.hdrs b).used = false ∧
        InvOn (kmalloc h n).2 offs1 ∧ b ∈ offs1 ∧ (∀ x ∈ offs, x ∈ offs1) ∧
        (∀ x, (kmalloc h n).2.hdrs x ≠ h.hdrs x →
          x = b ∨ (b < x ∧ x < b + (h.hdrs b).size)) ∧
        ((kmalloc h n).2.hdrs b).used = true ∧
        ((kmalloc h n).2.hdrs b).magic = ALLOC_MAGIC ∧
        HDR_SIZE ≤ ((kmalloc h n).2.hdrs b).size ∧
        ((kmalloc h n).2.hdrs b).size ≤ (h.hdrs b).size ∧
        (kmalloc h n).2.data = h.data ∧ (kmalloc h n).2.initialized = true) := by
  obtain ⟨hchain, hmagic, hnot⟩ := hI
  have e16 : HDR_SIZE = 16 := rfl
  have e32 : MIN_ALLOC_SIZE = 32 := rfl
  have hinit2 : kmalloc_init h = h := kmalloc_init_of_initialized hinit
  have hmod : ((n + 15) % U64 / 16 * 16 + HDR_SIZE) % U64
      = (n + 15) % U64 / 16 * 16 + HDR_SIZE := Nat.mod_eq_of_lt hsafe
  set T := (n + 15) % U64 / 16 * 16 + HDR_SIZE with hT
  have hT16 : HDR_SIZE ≤ T := by omega
  cases hfind : find_free_block h.hdrs T with
  | none =>
    have hkm : kmalloc h n = (none, h) := by
      simp only [kmalloc, if_neg hn, hinit2, hT, hmod, hfind]
    rw [hkm]
    exact ⟨fun _ => rfl, fun p hp => by simp at hp⟩
  | some b =>
    have hkm : kmalloc h n = (some (b + HDR_SIZE),
        { h with
            hdrs := split_block h.hdrs b T
            heap_used := (h.heap_used + ((split_block h.hdrs b T) b).size) % U64 }) := by
      simp only [kmalloc, if_neg hn, hinit2, hT, hmod, hfind]
    have hhd : (kmalloc h n).2.hdrs = split_block h.hdrs b T := by rw [hkm]
    have hdat : (kmalloc h n).2.data = h.data := by rw [hkm]
    have hini : (kmalloc h n).2.initialized = true := by rw [hkm]; exact hinit
    have hfst : (kmalloc h n).1 = some (b + HDR_SIZE) := by rw [hkm]
    obtain ⟨hbmem, hbfree, hble⟩ :=
      find_free_blockF_mem hchain (fun o ho => (hmagic o ho).1) hfind
    constructor
    · intro hc
      rw [hfst] at hc
      simp at hc
    intro p hp
    rw [hfst] at hp
    have hpb : p = b + HDR_SIZE := (Option.some.inj hp).symm
    subst hpb
    have hbm : (h.hdrs b).magic = ALLOC_MAGIC := (hmagic b hbmem).1
    obtain ⟨pre, rest, hdecomp, hchainb⟩ := heapChain_decomp hchain hbmem
    have hfull : HeapChain h.hdrs 0 (pre ++ b :: rest) := hdecomp ▸ hchain
    have hnd := heapChain_nodup hfull
    rw [List.nodup_append] at hnd
    by_cases hsp : T + MIN_ALLOC_SIZE ≤ (h.hdrs b).size
    · -- the splitting case
      have hpt := @split_block_pos h.hdrs b T (by omega) hsp
      have hTsz : T < (h.hdrs b).size := by omega
      have hother : ∀ x, x ≠ b → x ≠ b + T → split_block h.hdrs b T x = h.hdrs x := by
        intro x hx1 hx2
        rw [hpt x, if_neg hx1, if_neg hx2]
      have hchain1 :
          HeapChain (split_block h.hdrs b T) 0 (pre ++ b :: (b + T) :: rest) := by
        refine heapChain_split hfull (by omega) hTsz ?_ ?_
          (fun x hx1 hx2 => by rw [hother x hx1 hx2])
        · rw [hpt b, if_pos rfl]
        · rw [hpt (b + T), if_neg (by omega), if_pos rfl]
      have hsubset : ∀ x ∈ offs, x ∈ pre ++ b :: (b + T) :: rest := by
        intro x hx
        rw [hdecomp] at hx
        simp only [List.mem_append, List.mem_cons] at hx ⊢
        tauto
      have hnotin : ∀ x ∈ offs, x ≠ b → x ≠ b + T := by
        intro x hx hne
        rcases mem_outside_extent hchain hbmem hx hne with hlt | hge <;> omega
      refine ⟨b, pre ++ b :: (b + T) :: rest, rfl, hbmem, hbfree, ?_,
        by simp, hsubset, ?_, ?_, ?_, ?_, ?_, hdat, hini⟩
      · -- the invariant for the new walk
        refine ⟨by rw [hhd]; exact hchain1, ?_, ?_⟩
        · intro o ho
          rw [hhd]
          simp only [List.mem_append, List.mem_cons] at ho
          rcases ho with ho | ho | ho | ho
          · have hne : o ≠ b := fun he => hnd.2.2 ho (he ▸ List.mem_cons_self b rest)
            have homem : o ∈ offs := by rw [hdecomp]; simp [ho]
            rw [hother o hne (hnotin o homem hne)]
            exact hmagic o homem
          · rw [ho, hpt b, if_pos rfl]
            exact ⟨hbm, hT16⟩
          · rw [ho, hpt (b + T), if_neg (by omega), if_pos rfl]
            refine ⟨rfl, ?_⟩
            show HDR_SIZE ≤ (h.hdrs b).size - T
            omega
          · have hne : o ≠ b := by
              intro he
              subst he
              exact (List.nodup_cons.mp hnd.2.1).1 ho
            have homem : o ∈ offs := by rw [hdecomp]; simp [ho]
            rw [hother o hne (hnotin o homem hne)]
            exact hmagic o homem
        · intro o ho
          rw [hhd]
          have ho1 : o ≠ b := by intro he; subst he; exact ho (by simp)
          have ho2 : o ≠ b + T := by intro he; subst he; exact ho (by simp)
          have ho3 : o ∉ offs := fun hc => ho (hsubset o hc)
          rw [hother o ho1 ho2]
          exact hnot o ho3
      · -- locality of the header updates
        intro x hx
        rw [hhd] at hx
        by_cases he : x = b
        · exact Or.inl he
        · by_cases he2 : x = b + T
          · exact Or.inr (by omega)
          · exact absurd (hother x he he2) hx
      · rw [hhd, hpt b, if_pos rfl]
      · rw [hhd, hpt b, if_pos rfl]; exact hbm
      · rw [hhd, hpt b, if_pos rfl]; exact hT16
      · rw [hhd, hpt b, if_pos rfl]; exact hble
    · -- the block is consumed whole
      have hpt := @split_block_nosplit h.hdrs b T hsp
      have hother : ∀ x, x ≠ b → split_block h.hdrs b T x = h.hdrs x := by
        intro x hx
        rw [hpt x, if_neg hx]
      have hchain1 : HeapChain (split_block h.hdrs b T) 0 offs := by
        refine heapChain_congr hchain ?_
        intro o ho
        by_cases he : o = b
        · rw [he, hpt b, if_pos rfl]
        · rw [hother o he]
      refine ⟨b, offs, rfl, hbmem, hbfree, ?_, hbmem,
        fun x hx => hx, ?_, ?_, ?_, ?_, ?_, hdat, hini⟩
      · refine ⟨by rw [hhd]; exact hchain1, ?_, ?_⟩
        · intro o ho
          rw [hhd]
          by_cases he : o = b
          · rw [he, hpt b, if_pos rfl]
            exact hmagic b hbmem
          · rw [hother o he]
            exact hmagic o ho
        · intro o ho
          rw [hhd]
          have hne : o ≠ b := fun he => ho (he ▸ hbmem)
          rw [hother o hne]
          exact hnot o ho
      · intro x hx
        rw [hhd] at hx
        by_cases he : x = b
        · exact Or.inl he
        · exact absurd (hother x he) hx
      · rw [hhd, hpt b, if_pos rfl]
      · rw [hhd, hpt b, if_pos rfl]; exact (hmagic b hbmem).1
      · rw [hhd, hpt b, if_pos rfl]; exact (hmagic b hbmem).2
      · rw [hhd, hpt b, if_pos rfl]

end FreeCore

namespace FreeCore

/-- A kfree call that does not return `ok` leaves the heap untouched. -/
theorem kfree_not_ok_eq {h : Heap} {ptr : Option Nat}
    (hne : (kfree h ptr).1 ≠ KfreeResult.ok) : (kfree h ptr).2 = h := by
  cases ptr with
  | none => rfl
  | some p =>
    by_cases h1 : h.initialized = false
    · simp [kfree, h1]
    by_cases h2 : p < HDR_SIZE
    · simp [kfree, h1, h2]
    by_cases h3 : validate_block h.hdrs (p - HDR_SIZE) = false
    · simp [kfree, h1, h2, h3]
    by_cases h4 : (h.hdrs (p - HDR_SIZE)).used = false
    · simp [kfree, h1, h2, h3, h4]
    exact absurd (by simp [kfree, h1, h2, h3, h4]) hne

/-- An `ok` result from kfree pins down the branch conditions. -/
theorem kfree_ok_conditions {h : Heap} {p : Nat}
    (hok : (kfree h (some p)).1 = KfreeResult.ok) :
    h.initialized = true ∧ HDR_SIZE ≤ p ∧
    validate_block h.hdrs (p - HDR_SIZE) = true ∧
    (h.hdrs (p - HDR_SIZE)).used = true := by
  by_cases h1 : h.initialized = false
  · simp [kfree, h1] at hok
  by_cases h2 : p < HDR_SIZE
  · simp [kfree, h1, h2] at hok
  by_cases h3 : validate_block h.hdrs (p - HDR_SIZE) = false
  · simp [kfree, h1, h2, h3] at hok
  by_cases h4 : (h.hdrs (p - HDR_SIZE)).used = false
  · simp [kfree, h1, h2, h3, h4] at hok
  exact ⟨by simpa using h1, by omega, by simpa using h3, by simpa using h4⟩

/-- Detailed specification of `kfree` applied to a used walk block of an
invariant heap. -/
theorem kfree_free_spec {h : Heap} {offs : List Nat} {b : Nat}
    (hI : InvOn h offs) (hinit : h.initialized = true)
    (hb : b ∈ offs) (hused : (h.hdrs b).used = true) :
    (kfree h (some (b + HDR_SIZE))).1 = KfreeResult.ok ∧
    ∃ offs1,
      InvOn (kfree h (some (b + HDR_SIZE))).2 offs1 ∧
      b ∈ offs1 ∧
      (∀ x ∈ offs, x ≠ b + (h.hdrs b).size → x ∈ offs1) ∧
      (∀ x ∈ offs1, x ∈ offs) ∧
      ((kfree h (some (b + HDR_SIZE))).2.hdrs b).used = false ∧
      ((kfree h (some (b + HDR_SIZE))).2.hdrs b).magic = ALLOC_MAGIC ∧
      (h.hdrs b).size ≤ ((kfree h (some (b + HDR_SIZE))).2.hdrs b).size ∧
      (∀ x, x ≠ b → x ≠ b + (h.hdrs b).size →
        (kfree h (some (b + HDR_SIZE))).2.hdrs x = h.hdrs x) ∧
      (kfree h (some (b + HDR_SIZE))).2.data = h.data ∧
      (kfree h (some (b + HDR_SIZE))).2.initialized = true ∧
      (b + (h.hdrs b).size ∈ offs → (h.hdrs (b + (h.hdrs b).size)).used = false →
        ((kfree h (some (b + HDR_SIZE))).2.hdrs b).size
          = (h.hdrs b).size + (h.hdrs (b + (h.hdrs b).size)).size ∧
        b + (h.hdrs b).size ∉ offs1) := by
  obtain ⟨hchain, hmagic, hnot⟩ := hI
  have e16 : HDR_SIZE = 16 := rfl
  obtain ⟨hb0, hbHS, hbfit⟩ := heapChain_mem_bounds hchain b hb
  obtain ⟨hbm, hbsz⟩ := hmagic b hb
  have hval : validate_block h.hdrs b = true :=
    validate_block_iff.mpr ⟨hbHS, hbm, hbsz, hbfit⟩
  have hple : ¬(b + HDR_SIZE < HDR_SIZE) := by omega
  have hbeq : b + HDR_SIZE - HDR_SIZE = b := by omega
  set hdrs1 := upd h.hdrs b { h.hdrs b with used := false } with hh1
  have hkf : kfree h (some (b + HDR_SIZE)) =
      (.ok, { h with hdrs := merge_blocks hdrs1 b
                     heap_used := usub64 h.heap_used (h.hdrs b).size }) := by
    simp only [kfree, hinit, hbeq, if_neg hple, hval, hused, hh1]
    simp
  have h1b : hdrs1 b = { h.hdrs b with used := false } := by
    simp [hh1, upd]
  have h1other : ∀ x, x ≠ b → hdrs1 x = h.hdrs x := by
    intro x hx
    simp [hh1, upd, hx]
  have h1size : ∀ x, (hdrs1 x).size = (h.hdrs x).size := by
    intro x
    by_cases hx : x = b
    · rw [hx, h1b]
    · rw [h1other x hx]
  have h1magic : ∀ x, (hdrs1 x).magic = (h.hdrs x).magic := by
    intro x
    by_cases hx : x = b
    · rw [hx, h1b]
    · rw [h1other x hx]
  have hchain1 : HeapChain hdrs1 0 offs := heapChain_congr hchain fun o _ => h1size o
  have hhd : (kfree h (some (b + HDR_SIZE))).2.hdrs = merge_blocks hdrs1 b := by
    rw [hkf]
  have hdat : (kfree h (some (b + HDR_SIZE))).2.data = h.data := by rw [hkf]
  have hini : (kfree h (some (b + HDR_SIZE))).2.initialized = true := by
    rw [hkf]; exact hinit
  have hres : (kfree h (some (b + HDR_SIZE))).1 = KfreeResult.ok := by rw [hkf]
  have hnxtsz : b + (hdrs1 b).size = b + (h.hdrs b).size := by rw [h1size]
  obtain ⟨pre, rest, hdecomp, hchainb⟩ := heapChain_decomp hchain hb
  have hfull : HeapChain h.hdrs 0 (pre ++ b :: rest) := hdecomp ▸ hchain
  have hnd := heapChain_nodup hfull
  rw [List.nodup_append] at hnd
  cases rest with
  | nil =>
    -- the freed block reaches the arena end: no merge
    have hend : b + (h.hdrs b).size = KERNEL_HEAP_SIZE := by
      cases hchainb with
      | cons hlt hpos htail =>
        generalize hgen : b + (h.hdrs b).size = q at htail
        cases htail with
        | nil => rfl
    have hmrg : merge_blocks hdrs1 b = hdrs1 :=
      merge_blocks_noop_end (by rw [hnxtsz, hend])
    rw [hmrg] at hhd
    refine ⟨hres, offs, ⟨by rw [hhd]; exact hchain1, ?_, ?_⟩, hb,
      fun x hx _ => hx, fun x hx => hx, ?_, ?_, ?_, ?_, hdat, hini, ?_⟩
    · intro o ho
      rw [hhd, h1magic, h1size]
      exact hmagic o ho
    · intro o ho
      rw [hhd, h1magic]
      exact hnot o ho
    · rw [hhd, h1b]
    · rw [hhd, h1b]; exact hbm
    · rw [hhd, h1size]
    · intro x hx _
      rw [hhd, h1other x hx]
    · intro hmem2 _
      have := (heapChain_mem_bounds hchain _ hmem2).2.1
      omega
  | cons c rest2 =>
    have hc : c = b + (h.hdrs b).size ∧ HeapChain h.hdrs (b + (h.hdrs b).size) (c :: rest2) := by
      cases hchainb with
      | cons hlt hpos htail =>
        refine ⟨?_, htail⟩
        generalize hgen : b + (h.hdrs b).size = q at htail
        cases htail with
        | cons h1 h2 h3 => rfl
    obtain ⟨hceq, htailc⟩ := hc
    obtain ⟨hcmem0, hcHS, hcfit⟩ := heapChain_mem_bounds hchain c (by rw [hdecomp]; simp)
    obtain ⟨hcm, hcsz⟩ := hmagic c (by rw [hdecomp]; simp)
    have hcb : c ≠ b := by omega
    have h1c : hdrs1 c = h.hdrs c := h1other c hcb
    have hvalc : validate_block hdrs1 c = true := by
      rw [validate_block_iff, h1c]
      exact ⟨hcHS, hcm, hcsz, hcfit⟩
    have hnxtlt : b + (hdrs1 b).size < KERNEL_HEAP_SIZE := by
      rw [hnxtsz, ← hceq]
      exact hcHS
    cases husedc : (h.hdrs c).used with
    | true =>
      have hmrg : merge_blocks hdrs1 b = hdrs1 := by
        refine merge_blocks_noop_used hnxtlt ?_ ?_
        · rw [hnxtsz, ← hceq]
          exact hvalc
        · rw [hnxtsz, ← hceq, h1c]
          exact husedc
      rw [hmrg] at hhd
      refine ⟨hres, offs, ⟨by rw [hhd]; exact hchain1, ?_, ?_⟩, hb,
        fun x hx _ => hx, fun x hx => hx, ?_, ?_, ?_, ?_, hdat, hini, ?_⟩
      · intro o ho
        rw [hhd, h1magic, h1size]
        exact hmagic o ho
      · intro o ho
        rw [hhd, h1magic]
        exact hnot o ho
      · rw [hhd, h1b]
      · rw [hhd, h1b]; exact hbm
      · rw [hhd, h1size]
      · intro x hx _
        rw [hhd, h1other x hx]
      · intro _ hfree2
        rw [← hceq] at hfree2
        rw [husedc] at hfree2
        simp at hfree2
    | false =>
      -- the next block is free: it is absorbed
      have hvalc2 : validate_block hdrs1 (b + (hdrs1 b).size) = true := by
        rw [hnxtsz, ← hceq]
        exact hvalc
      have husedc2 : (hdrs1 (b + (hdrs1 b).size)).used = false := by
        rw [hnxtsz, ← hceq, h1c]
        exact husedc
      have hm := merge_blocks_merge hnxtlt hvalc2 husedc2
      have hbsize : (hdrs1 b).size = (h.hdrs b).size := h1size b
      have hmb : merge_blocks hdrs1 b b =
          { hdrs1 b with size := (h.hdrs b).size + (h.hdrs c).size } := by
        rw [hm b, if_pos rfl, hbsize, ← hceq, h1c]
      have hmc : merge_blocks hdrs1 b c = { h.hdrs c with magic := 0 } := by
        rw [hm c, if_neg (by omega), hbsize, ← hceq, if_pos rfl, h1c]
      have hmother : ∀ x, x ≠ b → x ≠ c → merge_blocks hdrs1 b x = h.hdrs x := by
        intro x hx1 hx2
        rw [hm x, if_neg hx1, hbsize, ← hceq, if_neg hx2]
        exact h1other x hx1
      have hchainm : HeapChain (merge_blocks hdrs1 b) 0 (pre ++ b :: rest2) := by
        have hfull2 : HeapChain h.hdrs 0
            (pre ++ b :: (b + (h.hdrs b).size) :: rest2) := by
          rw [← hceq]
          exact hfull
        refine heapChain_merge hfull2 ?_ ?_
        · rw [hmb, ← hceq]
        · intro x hxb
          by_cases hxc : x = c
          · rw [hxc, hmc]
          · rw [hmother x hxb hxc]
      have hcnotin : c ∉ pre ++ b :: rest2 := by
        intro hcmem
        simp only [List.mem_append, List.mem_cons] at hcmem
        rcases hcmem with hcp | hcb2 | hcr
        · exact hnd.2.2 hcp (by simp)
        · exact hcb hcb2
        · have := heapChain_nodup htailc
          exact (List.nodup_cons.mp this).1 hcr
      refine ⟨hres, pre ++ b :: rest2, ⟨by rw [hhd]; exact hchainm, ?_, ?_⟩,
        by simp, ?_, ?_, ?_, ?_, ?_, ?_, hdat, hini, ?_⟩
      · -- walk members keep a valid magic and adequate size
        intro o ho
        rw [hhd]
        by_cases hob : o = b
        · rw [hob, hmb]
          constructor
          · show (hdrs1 b).magic = ALLOC_MAGIC
            rw [h1b]
            exact hbm
          · show HDR_SIZE ≤ (h.hdrs b).size + (h.hdrs c).size
            omega
        · have hoc : o ≠ c := fun he => hcnotin (he ▸ ho)
          rw [hmother o hob hoc]
          refine hmagic o ?_
          rw [hdecomp]
          simp only [List.mem_append, List.mem_cons] at ho ⊢
          tauto
      · -- off-walk headers have an invalid magic
        intro o ho
        rw [hhd]
        by_cases hoc : o = c
        · rw [hoc, hmc]
          show (0:Nat) ≠ ALLOC_MAGIC
          decide
        · have hob : o ≠ b := fun he => ho (he ▸ (by simp))
          rw [hmother o hob hoc]
          refine hnot o ?_
          intro homem
          rw [hdecomp] at homem
          simp only [List.mem_append, List.mem_cons] at homem
          rcases homem with h1 | h2 | h3 | h4
          · exact ho (by simp [h1])
          · exact hob h2
          · exact hoc h3
          · exact ho (by simp [h4])
      · -- offsets other than the absorbed one survive
        intro x hx hxne
        rw [hdecomp] at hx
        simp only [List.mem_append, List.mem_cons] at hx ⊢
        rcases hx with h1 | h2 | h3 | h4
        · tauto
        · tauto
        · exact absurd (h3.trans hceq) hxne
        · tauto
      · -- the new walk is contained in the old one
        intro x hx
        rw [hdecomp]
        simp only [List.mem_append, List.mem_cons] at hx ⊢
        tauto
      · rw [hhd, hmb, h1b]
      · rw [hhd, hmb, h1b]
        exact hbm
      · rw [hhd, hmb]
        show (h.hdrs b).size ≤ (h.hdrs b).size + (h.hdrs c).size
        omega
      · intro x hx1 hx2
        rw [hhd]
        refine hmother x hx1 ?_
        omega
      · intro _ _
        constructor
        · rw [hhd, hmb]
          show (h.hdrs b).size + (h.hdrs c).size
            = (h.hdrs b).size + (h.hdrs (b + (h.hdrs b).size)).size
          rw [hceq]
        · rw [← hceq]
          exact hcnotin

end FreeCore

namespace FreeCore

/-- Request sizes whose 16-byte rounding plus header size does not wrap
`size_t`.  Every size below 2^64 - 31 qualifies. -/
def SafeSize (n : Nat) : Prop := (n + 15) % U64 / 16 * 16 + HDR_SIZE < U64

instance (n : Nat) : Decidable (SafeSize n) := by
  unfold SafeSize
  infer_instance

theorem invOn_data {h : Heap} {offs : List Nat} (hI : InvOn h offs) (d : Nat → Nat) :
    InvOn { h with data := d } offs := hI

/-- `kfree` preserves the heap invariant for every pointer argument. -/
theorem invOn_kfree {h : Heap} {offs : List Nat} (hI : InvOn h offs)
    (ptr : Option Nat) : ∃ offs1, InvOn (kfree h ptr).2 offs1 := by
  by_cases hok : (kfree h ptr).1 = KfreeResult.ok
  · cases ptr with
    | none => simp [kfree] at hok
    | some p =>
      obtain ⟨hinit, hp16, hval, hused⟩ := kfree_ok_conditions hok
      have hmem : p - HDR_SIZE ∈ offs := mem_of_validate hI hval
      have hpe : p = p - HDR_SIZE + HDR_SIZE := by omega
      obtain ⟨-, offs1, hI1, -, -, -, -, -, -, -, -, -⟩ :=
        kfree_free_spec hI hinit hmem hused
      rw [hpe]
      exact ⟨offs1, hI1⟩
  · rw [kfree_not_ok_eq hok]
    exact ⟨offs, hI⟩

theorem kmalloc_init_idem (h : Heap) :
    kmalloc_init (kmalloc_init h) = kmalloc_init h := by
  by_cases hi : h.initialized
  · rw [kmalloc_init_of_initialized hi, kmalloc_init_of_initialized hi]
  · refine kmalloc_init_of_initialized ?_
    simp [kmalloc_init, hi]

theorem kmalloc_eq_init (h : Heap) {n : Nat} (hn : n ≠ 0) :
    kmalloc h n = kmalloc (kmalloc_init h) n := by
  simp only [kmalloc, kmalloc_init_idem, if_neg hn]

/-- `kmalloc` preserves the heap invariant for safe request sizes. -/
theorem invOn_kmalloc {h : Heap} {offs : List Nat} (hI : InvOn h offs)
    {n : Nat} (hsafe : SafeSize n) : ∃ offs1, InvOn (kmalloc h n).2 offs1 := by
  by_cases hn : n = 0
  · subst hn
    exact ⟨offs, by simpa [kmalloc] using hI⟩
  by_cases hinit : h.initialized = true
  · obtain ⟨hnone, hsome⟩ := kmalloc_spec hI hinit hsafe hn
    cases hp : (kmalloc h n).1 with
    | none => exact ⟨offs, by rw [hnone hp]; exact hI⟩
    | some p =>
      obtain ⟨b, offs1, -, -, -, hI1, -⟩ := hsome p hp
      exact ⟨offs1, hI1⟩
  · have hfresh : InvOn (kmalloc_init h) [0] :=
      invOn_fresh (by simpa using hinit)
    have hinit1 : (kmalloc_init h).initialized = true := by
      simp [kmalloc_init, (by simpa using hinit : h.initialized = false)]
    rw [kmalloc_eq_init h hn]
    obtain ⟨hnone, hsome⟩ := kmalloc_spec hfresh hinit1 hsafe hn
    cases hp : (kmalloc (kmalloc_init h) n).1 with
    | none => exact ⟨[0], by rw [hnone hp]; exact hfresh⟩
    | some p =>
      obtain ⟨b, offs1, -, -, -, hI1, -⟩ := hsome p hp
      exact ⟨offs1, hI1⟩

/-- `kzalloc` preserves the heap invariant for safe request sizes (the zero
fill only touches payload bytes). -/
theorem invOn_kzalloc {h : Heap} {offs : List Nat} (hI : InvOn h offs)
    {n : Nat} (hsafe : SafeSize n) : ∃ offs1, InvOn (kzalloc h n).2 offs1 := by
  obtain ⟨offs1, hI1⟩ := invOn_kmalloc hI hsafe
  rcases hkm : kmalloc h n with ⟨r, h1⟩
  rw [hkm] at hI1
  cases r with
  | none => exact ⟨offs1, by simpa [kzalloc, hkm] using hI1⟩
  | some p =>
    refine ⟨offs1, ?_⟩
    have : (kzalloc h n).2 = { h1 with data := memset h1.data p 0 n } := by
      simp [kzalloc, hkm]
    rw [this]
    exact invOn_data hI1 _

/-- `krealloc` preserves the heap invariant for safe request sizes. -/
theorem invOn_krealloc {h : Heap} {offs : List Nat} (hI : InvOn h offs)
    (ptr : Option Nat) {n : Nat} (hsafe : SafeSize n) :
    ∃ offs1, InvOn (krealloc h ptr n).2 offs1 := by
  cases ptr with
  | none =>
    have : krealloc h none n = kmalloc h n := rfl
    rw [this]
    exact invOn_kmalloc hI hsafe
  | some p =>
    by_cases hn : n = 0
    · subst hn
      have : krealloc h (some p) 0 = (none, (kfree h (some p)).2) := by
        simp [krealloc]
      rw [this]
      exact invOn_kfree hI (some p)
    by_cases hp16 : p < HDR_SIZE
    · have : krealloc h (some p) n = (none, h) := by
        simp [krealloc, hn, hp16]
      rw [this]
      exact ⟨offs, hI⟩
    by_cases hval : validate_block h.hdrs (p - HDR_SIZE) = false
    · have : krealloc h (some p) n = (none, h) := by
        simp [krealloc, hn, hp16, hval]
      rw [this]
      exact ⟨offs, hI⟩
    by_cases hfit : n ≤ (h.hdrs (p - HDR_SIZE)).size - HDR_SIZE
    · have : krealloc h (some p) n = (some p, h) := by
        simp [krealloc, hn, hp16, hval, hfit]
      rw [this]
      exact ⟨offs, hI⟩
    · obtain ⟨offs1, hI1⟩ := invOn_kmalloc hI hsafe
      rcases hkm : kmalloc h n with ⟨r, h1⟩
      rw [hkm] at hI1
      cases r with
      | none =>
        have : krealloc h (some p) n = (none, h1) := by
          simp [krealloc, hn, hp16, hval, hfit, hkm]
        rw [this]
        exact ⟨offs1, hI1⟩
      | some newp =>
        have hkr : krealloc h (some p) n =
            (some newp,
             (kfree { h1 with
                data := memcpy h1.data newp p ((h.hdrs (p - HDR_SIZE)).size - HDR_SIZE) }
               (some p)).2) := by
          simp [krealloc, hn, hp16, hval, hfit, hkm]
        rw [hkr]
        exact invOn_kfree (invOn_data hI1 _) (some p)

end FreeCore

namespace FreeCore

/-- The walk offsets of free blocks whose extent covers `[lo, hi)`. -/
def spanningFree (hdrs : Nat → AllocHeader) (offs : List Nat) (lo hi : Nat) : List Nat :=
  offs.filter fun o => !(hdrs o).used && decide (o ≤ lo) && decide (hi ≤ o + (hdrs o).size)

/-- An uninitialized heap with zeroed backing memory. -/
def freshHeap : Heap :=
  { hdrs := fun _ => ⟨0, 0, false⟩, data := fun _ => 0, initialized := false, heap_used := 0 }

/-- The heap after initialization and one 16-byte allocation. -/
def heapOneAlloc : Heap := (kmalloc (kmalloc_init freshHeap) 16).2

/-- The heap after initialization and two 16-byte allocations (two adjacent
32-byte used blocks at offsets 0 and 32, the tail free at 64). -/
def heapTwoAlloc : Heap := (kmalloc heapOneAlloc 16).2

/-- The walk of an invariant heap can be recovered by evaluation. -/
theorem invOn_of_inv_walk {h : Heap} {offs : List Nat} (hInv : Inv h)
    (hw : walkBlocks h.hdrs = some offs) : InvOn h offs := by
  obtain ⟨offs2, hc2, hm2, hn2⟩ := hInv
  have hc := heapChain_of_walk hw
  have he : offs2 = offs := heapChain_det hc2 hc
  subst he
  exact ⟨hc2, hm2, hn2⟩

theorem inv_heapOneAlloc : Inv heapOneAlloc :=
  invOn_kmalloc (invOn_fresh rfl) (by decide)

theorem invOn_heapOneAlloc : InvOn heapOneAlloc [0, 32] :=
  invOn_of_inv_walk inv_heapOneAlloc (by decide)

theorem inv_heapTwoAlloc : Inv heapTwoAlloc :=
  invOn_kmalloc invOn_heapOneAlloc (by decide)

theorem invOn_heapTwoAlloc : InvOn heapTwoAlloc [0, 32, 64] :=
  invOn_of_inv_walk inv_heapTwoAlloc (by decide)

theorem length_filter_eq_one_of_nodup {l : List Nat} {a : Nat}
    (hnd : l.Nodup) (hmem : a ∈ l) :
    (l.filter fun o => decide (o = a)).length = 1 := by
  induction l with
  | nil => simp at hmem
  | cons x xs ih =>
    rw [List.nodup_cons] at hnd
    by_cases hxa : x = a
    · subst hxa
      have hfe : xs.filter (fun o => decide (o = x)) = [] := by
        rw [List.filter_eq_nil]
        intro o ho
        simp only [decide_eq_true_eq]
        intro he
        exact hnd.1 (he ▸ ho)
      simp [List.filter_cons, hfe]
    · have hmem2 : a ∈ xs := by
        rcases List.mem_cons.mp hmem with he | hm
        · exact absurd he.symm hxa
        · exact hm
      simp [List.filter_cons, hxa, ih hnd.2 hmem2]

/-- After a successful free the block header is marked free but still
validates (magic intact, size within bounds); `heap_initialized` is
untouched. -/
theorem kfree_ok_after {h : Heap} {p : Nat}
    (hok : (kfree h (some p)).1 = KfreeResult.ok) :
    (kfree h (some p)).2.initialized = h.initialized ∧
    ((kfree h (some p)).2.hdrs (p - HDR_SIZE)).used = false ∧
    validate_block (kfree h (some p)).2.hdrs (p - HDR_SIZE) = true := by
  obtain ⟨hinit, hp16, hval, hused⟩ := kfree_ok_conditions hok
  obtain ⟨hlt, hm, hsz, hfit⟩ := validate_block_iff.mp hval
  have e16 : HDR_SIZE = 16 := rfl
  have hnlt : ¬(p < HDR_SIZE) := by omega
  set b := p - HDR_SIZE with hbdef
  set hdrs1 := upd h.hdrs b { h.hdrs b with used := false } with hh1
  have hkf : kfree h (some p) =
      (.ok, { h with hdrs := merge_blocks hdrs1 b
                     heap_used := usub64 h.heap_used (h.hdrs b).size }) := by
    simp only [kfree, hinit, if_neg hnlt, hval, hused, hh1, hbdef]
    simp
  have h1b : hdrs1 b = { h.hdrs b with used := false } := by simp [hh1, upd]
  have hbsz1 : (hdrs1 b).size = (h.hdrs b).size := by rw [h1b]
  have hhd : (kfree h (some p)).2.hdrs = merge_blocks hdrs1 b := by rw [hkf]
  have hini : (kfree h (some p)).2.initialized = h.initialized := by rw [hkf]
  have hgoal : ((merge_blocks hdrs1 b) b).used = false ∧
      validate_block (merge_blocks hdrs1 b) b = true := by
    by_cases hc1 : KERNEL_HEAP_SIZE ≤ b + (hdrs1 b).size
    · rw [merge_blocks_noop_end hc1]
      refine ⟨by rw [h1b], validate_block_iff.mpr ⟨hlt, by rw [h1b]; exact hm,
        by rw [h1b]; exact hsz, by rw [hbsz1] at hc1 ⊢; exact hfit⟩⟩
    · have hc1l : b + (hdrs1 b).size < KERNEL_HEAP_SIZE := by omega
      by_cases hv2 : validate_block hdrs1 (b + (hdrs1 b).size) = false
      · rw [merge_blocks_noop_invalid hc1l hv2]
        exact ⟨by rw [h1b], validate_block_iff.mpr ⟨hlt, by rw [h1b]; exact hm,
          by rw [h1b]; exact hsz, by rw [hbsz1]; exact hfit⟩⟩
      · have hv2t : validate_block hdrs1 (b + (hdrs1 b).size) = true := by
          simpa using hv2
        by_cases hu2 : (hdrs1 (b + (hdrs1 b).size)).used = true
        · rw [merge_blocks_noop_used hc1l hv2t hu2]
          exact ⟨by rw [h1b], validate_block_iff.mpr ⟨hlt, by rw [h1b]; exact hm,
            by rw [h1b]; exact hsz, by rw [hbsz1]; exact hfit⟩⟩
        · have hu2f : (hdrs1 (b + (hdrs1 b).size)).used = false := by
            simpa using hu2
          have hmPt := merge_blocks_merge hc1l hv2t hu2f
          have hfit2 := (validate_block_iff.mp hv2t).2.2.2
          rw [hmPt b, if_pos rfl]
          refine ⟨by rw [h1b], validate_block_iff.mpr ⟨hlt, ?_, ?_, ?_⟩⟩
          · rw [hmPt b, if_pos rfl]
            show (hdrs1 b).magic = ALLOC_MAGIC
            rw [h1b]
            exact hm
          · rw [hmPt b, if_pos rfl]
            show HDR_SIZE ≤ (hdrs1 b).size + (hdrs1 (b + (hdrs1 b).size)).size
            rw [hbsz1]
            omega
          · rw [hmPt b, if_pos rfl]
            show b + ((hdrs1 b).size + (hdrs1 (b + (hdrs1 b).size)).size)
              ≤ KERNEL_HEAP_SIZE
            omega
  rw [hhd]
  exact ⟨hini, hgoal.1, hgoal.2⟩

end FreeCore

namespace FreeCore

/-- C4: for n > 0, after free(allocate(n)) succeeds, a second kfree of the
same pointer is detected and reported as a double free and aborts leaving the
entire heap state — every block header and the used-byte counter — unchanged. -/
theorem C4_double_free {h h1 h2 : Heap} {n p : Nat}
    (hInv : Inv h) (hn : 0 < n)
    (halloc : kmalloc h n = (some p, h1))
    (hfree : kfree h1 (some p) = (KfreeResult.ok, h2)) :
    kfree h2 (some p) = (KfreeResult.doubleFree, h2) := by
  have hok : (kfree h1 (some p)).1 = KfreeResult.ok := by rw [hfree]
  obtain ⟨hinit1, hp16, -, -⟩ := kfree_ok_conditions hok
  obtain ⟨hini2, hused2, hval2⟩ := kfree_ok_after hok
  have h2eq : (kfree h1 (some p)).2 = h2 := by rw [hfree]
  rw [h2eq] at hini2 hused2 hval2
  have hinit2 : h2.initialized = true := by rw [hini2]; exact hinit1
  have e16 : HDR_SIZE = 16 := rfl
  have hnlt : ¬(p < HDR_SIZE) := by omega
  simp [kfree, hinit2, hnlt, hval2, hused2]

/-- C4 witness: allocate 16 bytes from a fresh heap, free the pointer, and the
second free is reported as a double free with the heap unchanged. -/
theorem C4_witness :
    Inv (kmalloc_init freshHeap) ∧ (0:Nat) < 16 ∧
    kmalloc (kmalloc_init freshHeap) 16 = (some 16, heapOneAlloc) ∧
    kfree heapOneAlloc (some 16)
      = (KfreeResult.ok, (kfree heapOneAlloc (some 16)).2) ∧
    kfree (kfree heapOneAlloc (some 16)).2 (some 16)
      = (KfreeResult.doubleFree, (kfree heapOneAlloc (some 16)).2) := by
  have halloc : kmalloc (kmalloc_init freshHeap) 16 = (some 16, heapOneAlloc) :=
    Prod.ext (by decide) rfl
  have hfree : kfree heapOneAlloc (some 16)
      = (KfreeResult.ok, (kfree heapOneAlloc (some 16)).2) :=
    Prod.ext (by decide) rfl
  exact ⟨⟨[0], invOn_fresh rfl⟩, by decide, halloc, hfree,
    C4_double_free ⟨[0], invOn_fresh rfl⟩ (by decide) halloc hfree⟩

/-- C3: the krealloc contract.  A null pointer behaves as kmalloc; size 0
frees and returns null; a request that fits the current payload capacity
returns the same pointer with the heap unchanged; a growing request allocates
a new block, copies the old payload capacity's worth of bytes (min of old
capacity and request, the request being larger), frees the old block (its
header stays valid with `used` cleared) and returns the new pointer. -/
theorem C3_krealloc_contract :
    (∀ (h : Heap) (n : Nat), krealloc h none n = kmalloc h n) ∧
    (∀ (h : Heap) (p : Nat), krealloc h (some p) 0 = (none, (kfree h (some p)).2)) ∧
    (∀ (h : Heap) (p n : Nat), n ≠ 0 → HDR_SIZE ≤ p →
      validate_block h.hdrs (p - HDR_SIZE) = true →
      n ≤ (h.hdrs (p - HDR_SIZE)).size - HDR_SIZE →
      krealloc h (some p) n = (some p, h)) ∧
    (∀ (h : Heap) (offs : List Nat) (b n newp : Nat),
      InvOn h offs → h.initialized = true → b ∈ offs →
      (h.hdrs b).used = true → SafeSize n →
      (h.hdrs b).size - HDR_SIZE < n →
      (kmalloc h n).1 = some newp →
      (krealloc h (some (b + HDR_SIZE)) n).1 = some newp ∧
      (∀ i, i < (h.hdrs b).size - HDR_SIZE →
        (krealloc h (some (b + HDR_SIZE)) n).2.data (newp + i)
          = h.data (b + HDR_SIZE + i)) ∧
      ((krealloc h (some (b + HDR_SIZE)) n).2.hdrs b).used = false ∧
      ((krealloc h (some (b + HDR_SIZE)) n).2.hdrs b).magic = ALLOC_MAGIC) := by
  refine ⟨fun h n => rfl, fun h p => by simp [krealloc], ?_, ?_⟩
  · intro h p n hn hp hval hfit
    have hnlt : ¬(p < HDR_SIZE) := by omega
    simp [krealloc, hn, hnlt, hval, hfit]
  · intro h offs b n newp hI hinit hb hused hsafe hgrow hnp
    have e16 : HDR_SIZE = 16 := rfl
    obtain ⟨hchain, hmagic, hnot⟩ := hI
    have hIc : InvOn h offs := ⟨hchain, hmagic, hnot⟩
    obtain ⟨hb0, hbHS, hbfit⟩ := heapChain_mem_bounds hchain b hb
    obtain ⟨hbm, hbsz⟩ := hmagic b hb
    have hval : validate_block h.hdrs b = true :=
      validate_block_iff.mpr ⟨hbHS, hbm, hbsz, hbfit⟩
    have hn0 : n ≠ 0 := by omega
    have hbeq : b + HDR_SIZE - HDR_SIZE = b := by omega
    have hnlt : ¬(b + HDR_SIZE < HDR_SIZE) := by omega
    have hnofit : ¬(n ≤ (h.hdrs b).size - HDR_SIZE) := by omega
    obtain ⟨-, hsome⟩ := kmalloc_spec hIc hinit hsafe hn0
    obtain ⟨f, offs1, hfp, hfmem, hffree, hI1, hf1, hsub1, hloc1, -, -, -, -,
      hdat1, hini1⟩ := hsome newp hnp
    rcases hkm : kmalloc h n with ⟨r, h1⟩
    have hr : r = some newp := by rw [hkm] at hnp; exact hnp
    subst hr
    have h1def : (kmalloc h n).2 = h1 := by rw [hkm]
    rw [h1def] at hI1 hloc1 hdat1 hini1
    have hbf : b ≠ f := fun he => by simp [he, hffree] at hused
    have hbout : b < f ∨ f + (h.hdrs f).size ≤ b :=
      mem_outside_extent hchain hfmem hb hbf
    have hbpres : h1.hdrs b = h.hdrs b := by
      by_contra hc
      rcases hloc1 b hc with he | ⟨hgt, hlt2⟩
      · exact hbf he
      · rcases hbout with h1' | h2' <;> omega
    have hbmem1 : b ∈ offs1 := hsub1 b hb
    have hused1 : (h1.hdrs b).used = true := by rw [hbpres]; exact hused
    set h2 :=
      { h1 with
        data := memcpy h1.data newp (b + HDR_SIZE) ((h.hdrs b).size - HDR_SIZE) }
      with hh2
    have hkr : krealloc h (some (b + HDR_SIZE)) n =
        (some newp, (kfree h2 (some (b + HDR_SIZE))).2) := by
      rw [hh2]
      simp [krealloc, hn0, hnlt, hbeq, hval, hnofit, hkm]
    have hI2 : InvOn h2 offs1 := invOn_data hI1 _
    have hinit2 : h2.initialized = true := hini1
    have hused2 : (h2.hdrs b).used = true := hused1
    obtain ⟨hok3, offs3, hI3, -, -, -, hufree3, humag3, -, -, hdat3, -, -⟩ :=
      kfree_free_spec hI2 hinit2 hbmem1 hused2
    rw [hkr]
    refine ⟨rfl, ?_, ?_, ?_⟩
    · intro i hi
      show (kfree h2 (some (b + HDR_SIZE))).2.data (newp + i)
        = h.data (b + HDR_SIZE + i)
      rw [hdat3]
      show memcpy h1.data newp (b + HDR_SIZE) ((h.hdrs b).size - HDR_SIZE)
        (newp + i) = h.data (b + HDR_SIZE + i)
      simp only [memcpy]
      rw [if_pos ⟨by omega, by omega⟩]
      have harg : newp + i - newp = i := by omega
      rw [harg, hdat1]
    · exact hufree3
    · exact humag3

/-- C3 witness: on the heap with one 32-byte block at 0 and free tail, a
shrinking request returns the same pointer; a growing request of 100 bytes
returns payload offset 48, copies the 16 old payload bytes and frees the old
block. -/
theorem C3_witness :
    validate_block heapOneAlloc.hdrs (16 - HDR_SIZE) = true ∧
    krealloc heapOneAlloc (some 16) 8 = (some 16, heapOneAlloc) ∧
    ((krealloc heapOneAlloc (some (0 + HDR_SIZE)) 100).1 = some 48 ∧
      (∀ i, i < (heapOneAlloc.hdrs 0).size - HDR_SIZE →
        (krealloc heapOneAlloc (some (0 + HDR_SIZE)) 100).2.data (48 + i)
          = heapOneAlloc.data (0 + HDR_SIZE + i)) ∧
      ((krealloc heapOneAlloc (some (0 + HDR_SIZE)) 100).2.hdrs 0).used = false ∧
      ((krealloc heapOneAlloc (some (0 + HDR_SIZE)) 100).2.hdrs 0).magic
        = ALLOC_MAGIC) :=
  ⟨by decide,
   C3_krealloc_contract.2.2.1 heapOneAlloc 16 8 (by decide) (by decide)
     (by decide) (by decide),
   C3_krealloc_contract.2.2.2 heapOneAlloc [0, 32] 0 100 48 invOn_heapOneAlloc
     (by decide) (by decide) (by decide) (by decide) (by decide) (by decide)⟩

end FreeCore

namespace FreeCore

/-- C1 counterexample: on the heap with two adjacent 32-byte live allocations
at offsets 0 and 32, freeing the lower one first and then the higher one does
NOT produce one spanning free block: merging is right-neighbor only, and when
the lower block was freed its right neighbor was still in use.  The final walk
holds two separate free blocks and no free block spans both original extents
[0,32) and [32,64). -/
theorem C1_counterexample :
    Inv heapTwoAlloc ∧
    (heapTwoAlloc.hdrs 0).used = true ∧ (heapTwoAlloc.hdrs 0).size = 32 ∧
    (heapTwoAlloc.hdrs 32).used = true ∧ (heapTwoAlloc.hdrs 32).size = 32 ∧
    (kfree heapTwoAlloc (some 16)).1 = KfreeResult.ok ∧
    (kfree (kfree heapTwoAlloc (some 16)).2 (some 48)).1 = KfreeResult.ok ∧
    walkBlocks (kfree (kfree heapTwoAlloc (some 16)).2 (some 48)).2.hdrs
      = some [0, 32] ∧
    spanningFree (kfree (kfree heapTwoAlloc (some 16)).2 (some 48)).2.hdrs
      [0, 32] 0 64 = [] :=
  ⟨inv_heapTwoAlloc, by decide, by decide, by decide, by decide, by decide,
   by decide, by decide, by decide⟩

/-- C1 (amended): for every invariant heap and every pair of adjacent live
allocations, freeing the higher-addressed block first and then the
lower-addressed one results in exactly one free block whose extent spans both
original blocks' extents (the allocator merges only with the immediately
following block, so the opposite order can leave two adjacent free blocks
unmerged — see the counterexample). -/
theorem C1_amended {h : Heap} {offs : List Nat} {a : Nat}
    (hI : InvOn h offs) (hinit : h.initialized = true)
    (ha : a ∈ offs) (hbmem : a + (h.hdrs a).size ∈ offs)
    (husedA : (h.hdrs a).used = true)
    (husedB : (h.hdrs (a + (h.hdrs a).size)).used = true) :
    ∃ offs2,
      HeapChain ((kfree (kfree h (some (a + (h.hdrs a).size + HDR_SIZE))).2
          (some (a + HDR_SIZE))).2).hdrs 0 offs2 ∧
      (spanningFree ((kfree (kfree h (some (a + (h.hdrs a).size + HDR_SIZE))).2
          (some (a + HDR_SIZE))).2).hdrs offs2 a
          (a + (h.hdrs a).size + (h.hdrs (a + (h.hdrs a).size)).size)).length
        = 1 := by
  have e16 : HDR_SIZE = 16 := rfl
  obtain ⟨hchain, hmagic, hnot⟩ := hI
  have hIc : InvOn h offs := ⟨hchain, hmagic, hnot⟩
  have hszA : HDR_SIZE ≤ (h.hdrs a).size := (hmagic a ha).2
  have hszB : HDR_SIZE ≤ (h.hdrs (a + (h.hdrs a).size)).size :=
    (hmagic _ hbmem).2
  set b := a + (h.hdrs a).size with hbdef
  set szb := (h.hdrs b).size with hszbdef
  have hab : a < b := by omega
  obtain ⟨hok1, offs1, hI1, hb1, hsub1, hrsub1, husedB1, hmagB1, hszB1, hloc1,
      hdat1, hini1, hmerge1⟩ := kfree_free_spec hIc hinit hbmem husedB
  set h1 := (kfree h (some (b + HDR_SIZE))).2 with hh1def
  have haeq : h1.hdrs a = h.hdrs a := hloc1 a (by omega) (by omega)
  have ha1 : a ∈ offs1 := hsub1 a ha (by omega)
  have husedA1 : (h1.hdrs a).used = true := by rw [haeq]; exact husedA
  obtain ⟨hok2, offs2, hI2, ha2, hsub2, hrsub2, husedA2, hmagA2, hszA2, hloc2,
      hdat2, hini2, hmerge2⟩ := kfree_free_spec hI1 hini1 ha1 husedA1
  set h2 := (kfree h1 (some (a + HDR_SIZE))).2 with hh2def
  have hnext1 : a + (h1.hdrs a).size = b := by rw [haeq]
  have hbmem1 : a + (h1.hdrs a).size ∈ offs1 := by rw [hnext1]; exact hb1
  have hfree1 : (h1.hdrs (a + (h1.hdrs a).size)).used = false := by
    rw [hnext1]; exact husedB1
  obtain ⟨hsz2eq, hbnot2⟩ := hmerge2 hbmem1 hfree1
  rw [hnext1] at hsz2eq
  rw [haeq] at hsz2eq
  have hcover : b + szb ≤ a + (h2.hdrs a).size := by
    rw [hsz2eq]
    omega
  obtain ⟨hchain2, hmagic2, hnot2⟩ := hI2
  refine ⟨offs2, hchain2, ?_⟩
  have hszA2pos : 0 < (h2.hdrs a).size := by rw [hsz2eq]; omega
  have hp_a : (!(h2.hdrs a).used && decide (a ≤ a)
      && decide (b + szb ≤ a + (h2.hdrs a).size)) = true := by
    rw [husedA2]
    simp only [Bool.not_false, Bool.true_and, Bool.and_eq_true, decide_eq_true_eq]
    exact ⟨Nat.le_refl a, hcover⟩
  have hp_other : ∀ o ∈ offs2, o ≠ a →
      (!(h2.hdrs o).used && decide (o ≤ a)
        && decide (b + szb ≤ o + (h2.hdrs o).size)) = false := by
    intro o ho2 hne
    have ho1 : o ∈ offs1 := hrsub2 o ho2
    have ho0 : o ∈ offs := hrsub1 o ho1
    rcases mem_outside_extent hchain2 ha2 ho2 hne with hlt | hge
    · have hob : o ≠ b := by omega
      have honb : o ≠ b + szb := by omega
      have hoeq1 : h1.hdrs o = h.hdrs o := hloc1 o hob (by omega)
      have hoeq2 : h2.hdrs o = h1.hdrs o :=
        hloc2 o hne (by rw [hnext1]; omega)
      have hdisj : o + (h.hdrs o).size ≤ a := heapChain_disjoint hchain ho0 ha hlt
      have hnocover : ¬(b + szb ≤ o + (h2.hdrs o).size) := by
        rw [hoeq2, hoeq1]
        omega
      simp [hnocover]
    · have hnole : ¬(o ≤ a) := by omega
      simp [hnole]
  have hfe : spanningFree h2.hdrs offs2 a (b + szb)
      = offs2.filter (fun o => decide (o = a)) := by
    unfold spanningFree
    refine List.filter_congr ?_
    intro o ho
    by_cases hoa : o = a
    · rw [hoa]
      rw [hp_a]
      simp
    · rw [hp_other o ho hoa]
      simp [hoa]
  rw [hfe]
  exact length_filter_eq_one_of_nodup (heapChain_nodup hchain2) ha2

/-- C1 witness: the amended claim at the concrete two-allocation heap with the
adjacent live blocks at offsets 0 and 32. -/
theorem C1_witness :
    heapTwoAlloc.initialized = true ∧
    (0:Nat) ∈ [0, 32, 64] ∧ 0 + (heapTwoAlloc.hdrs 0).size ∈ [0, 32, 64] ∧
    (heapTwoAlloc.hdrs 0).used = true ∧
    (heapTwoAlloc.hdrs (0 + (heapTwoAlloc.hdrs 0).size)).used = true ∧
    ∃ offs2,
      HeapChain ((kfree (kfree heapTwoAlloc
          (some (0 + (heapTwoAlloc.hdrs 0).size + HDR_SIZE))).2
          (some (0 + HDR_SIZE))).2).hdrs 0 offs2 ∧
      (spanningFree ((kfree (kfree heapTwoAlloc
          (some (0 + (heapTwoAlloc.hdrs 0).size + HDR_SIZE))).2
          (some (0 + HDR_SIZE))).2).hdrs offs2 0
          (0 + (heapTwoAlloc.hdrs 0).size
            + (heapTwoAlloc.hdrs (0 + (heapTwoAlloc.hdrs 0).size)).size)).length
        = 1 :=
  ⟨by decide, by decide, by decide, by decide, by decide,
   C1_amended invOn_heapTwoAlloc (by decide) (by decide) (by decide)
     (by decide) (by decide)⟩

/-- C2 counterexample: the heap invariant as stated fails for an allocation
request in the `size_t`-overflow window.  kmalloc(2^64 - 16) rounds the size
to 2^64 - 16 and adding the 16-byte header wraps the total to 0; the first
free block is then "split" into a zero-size used block, after which no walk of
the arena exists at all (the claim quantifies over every allocate operation,
including this one). -/
theorem C2_counterexample :
    Inv (kmalloc_init freshHeap) ∧
    (kmalloc (kmalloc_init freshHeap) (2 ^ 64 - 16)).1 = some HDR_SIZE ∧
    ¬ Inv (kmalloc (kmalloc_init freshHeap) (2 ^ 64 - 16)).2 := by
  refine ⟨⟨[0], invOn_fresh rfl⟩, by decide, ?_⟩
  rintro ⟨offs, hchain, -, -⟩
  have hz : ((kmalloc (kmalloc_init freshHeap) (2 ^ 64 - 16)).2.hdrs 0).size = 0 := by
    decide
  cases hchain with
  | cons hlt hpos htail =>
    rw [hz] at hpos
    omega

/-- C2 (amended): after initialization and after every allocate, zero-
allocate, free, and resize operation whose requested size avoids the
`size_t` overflow of the internal size rounding (`SafeSize`, satisfied by
every size below 2^64 - 31), the heap invariant holds: the walk from the
arena base by the size fields visits a contiguous gap-free sequence of blocks
whose sizes sum exactly to the 4 MiB arena size, every walked header has the
valid magic, and every header off the walk — in particular every merged-away
header — has an invalid magic. -/
theorem C2_amended :
    (∀ h : Heap, h.initialized = false → Inv (kmalloc_init h)) ∧
    (∀ (h : Heap) (n : Nat), Inv h → SafeSize n → Inv (kmalloc h n).2) ∧
    (∀ (h : Heap) (n : Nat), Inv h → SafeSize n → Inv (kzalloc h n).2) ∧
    (∀ (h : Heap) (ptr : Option Nat), Inv h → Inv (kfree h ptr).2) ∧
    (∀ (h : Heap) (ptr : Option Nat) (n : Nat), Inv h → SafeSize n →
      Inv (krealloc h ptr n).2) ∧
    (∀ h : Heap, Inv h → ∃ offs, HeapChain h.hdrs 0 offs ∧
      (offs.map fun o => (h.hdrs o).size).sum = KERNEL_HEAP_SIZE ∧
      (∀ o ∈ offs, (h.hdrs o).magic = ALLOC_MAGIC) ∧
      (∀ o, o ∉ offs → (h.hdrs o).magic ≠ ALLOC_MAGIC)) := by
  refine ⟨?_, ?_, ?_, ?_, ?_, ?_⟩
  · intro h hinit
    exact ⟨[0], invOn_fresh hinit⟩
  · rintro h n ⟨offs, hI⟩ hs
    exact invOn_kmalloc hI hs
  · rintro h n ⟨offs, hI⟩ hs
    exact invOn_kzalloc hI hs
  · rintro h ptr ⟨offs, hI⟩
    exact invOn_kfree hI ptr
  · rintro h ptr n ⟨offs, hI⟩ hs
    exact invOn_krealloc hI ptr hs
  · rintro h ⟨offs, hchain, hm, hn⟩
    have hsum := heapChain_sum hchain
    exact ⟨offs, hchain, by omega, fun o ho => (hm o ho).1, hn⟩

/-- C2 witness: the invariant holds after initialization, a 16-byte
allocation, a zero-allocation, a free and a resize on the concrete heap. -/
theorem C2_witness :
    freshHeap.initialized = false ∧ Inv (kmalloc_init freshHeap) ∧
    SafeSize 16 ∧ Inv heapOneAlloc ∧
    Inv (kzalloc heapOneAlloc 16).2 ∧
    Inv (kfree heapOneAlloc (some 16)).2 ∧
    Inv (krealloc heapOneAlloc (some 16) 100).2 :=
  ⟨rfl, C2_amended.1 freshHeap rfl, by decide,
   C2_amended.2.1 (kmalloc_init freshHeap) 16 (C2_amended.1 freshHeap rfl)
     (by decide),
   C2_amended.2.2.1 heapOneAlloc 16 inv_heapOneAlloc (by decide),
   C2_amended.2.2.2.1 heapOneAlloc (some 16) inv_heapOneAlloc,
   C2_amended.2.2.2.2.1 heapOneAlloc (some 16) 100 inv_heapOneAlloc (by decide)⟩

end FreeCore

namespace FreeCore

/-! ### The ext4 read-only driver (fs/ext4/ext4.c)

Devices are byte-addressable with a failure oracle per (offset, size) read.
On-disk records are parsed from byte lists at the packed-struct offsets of
ext4.h.  Error codes (all negative in C) are collapsed into `Option`. -/

def EXT4_SUPER_MAGIC : Nat := 0xEF53
def EXT4_SUPERBLOCK_OFFSET : Nat := 1024
def EXT4_ROOT_INO : Nat := 2
def EXT4_FEATURE_INCOMPAT_EXTENTS : Nat := 0x0040
def EXT4_EXTENT_HEADER_MAGIC : Nat := 0xF30A
def EXT4_EXTENTS_FL : Nat := 0x80000
def VFS_NAME_MAX : Nat := 255
def VFS_FILE : Nat := 0x01
def VFS_DIRECTORY : Nat := 0x02
def VFS_CHARDEVICE : Nat := 0x03
def VFS_BLOCKDEVICE : Nat := 0x04
def VFS_PIPE : Nat := 0x05
def VFS_SYMLINK : Nat := 0x06
def VFS_SOCKET : Nat := 0x09
def U32 : Nat := 2 ^ 32

/-- Byte access into a buffer (missing bytes read as 0). -/
def bget (l : List Nat) (i : Nat) : Nat := l.getD i 0 % 256

/-- Little-endian uint16_t at byte offset `o`. -/
def le16 (l : List Nat) (o : Nat) : Nat := bget l o + 256 * bget l (o + 1)

/-- Little-endian uint32_t at byte offset `o`. -/
def le32 (l : List Nat) (o : Nat) : Nat := le16 l o + 65536 * le16 l (o + 2)

/-- A block device: a byte map plus a read-failure oracle. -/
structure BlockDevice where
  data : Nat → Nat
  fail : Nat → Nat → Bool

/-- device->ops->read(device, offset, size, buffer): on success the buffer
holds exactly `size` device bytes. -/
def blockdev_read (d : BlockDevice) (off size : Nat) : Option (List Nat) :=
  if d.fail off size then none
  else some ((List.range size).map fun i => d.data (off + i) % 256)

/-- The superblock fields the driver reads, at their ext4_superblock_t packed
offsets. -/
structure Ext4Superblock where
  s_blocks_count_lo : Nat
  s_first_data_block : Nat
  s_log_block_size : Nat
  s_blocks_per_group : Nat
  s_inodes_per_group : Nat
  s_magic : Nat
  s_inode_size : Nat
  s_feature_incompat : Nat
  s_desc_size : Nat
  s_blocks_count_hi : Nat
deriving DecidableEq

def parseSuperblock (b : List Nat) : Ext4Superblock :=
  { s_blocks_count_lo := le32 b 4
    s_first_data_block := le32 b 20
    s_log_block_size := le32 b 24
    s_blocks_per_group := le32 b 32
    s_inodes_per_group := le32 b 40
    s_magic := le16 b 56
    s_inode_size := le16 b 88
    s_feature_incompat := le32 b 96
    s_desc_size := le16 b 254
    s_blocks_count_hi := le32 b 336 }

/-- The inode fields the driver reads, at their ext4_inode_t packed offsets;
`i_block` is kept as its 60 raw bytes (the extent-tree root). -/
structure Ext4Inode where
  i_mode : Nat
  i_size_lo : Nat
  i_flags : Nat
  i_block : List Nat
  i_size_high : Nat
deriving DecidableEq

def parseInode (b : List Nat) (off : Nat) : Ext4Inode :=
  { i_mode := le16 b off
    i_size_lo := le32 b (off + 4)
    i_flags := le32 b (off + 32)
    i_block := (List.range 60).map fun i => bget b (off + 40 + i)
    i_size_high := le32 b (off + 108) }

/-- The in-memory ext4_fs_t state built by mount. -/
structure Ext4Fs where
  device : BlockDevice
  sb : Ext4Superblock
  block_size : Nat
  block_count : Nat
  groups_count : Nat
  inodes_per_group : Nat
  blocks_per_group : Nat
  group_desc_table : List Nat

/-- ext4_read_block: one filesystem block from the device. -/
def ext4_read_block (fs : Ext4Fs) (block_num : Nat) : Option (List Nat) :=
  blockdev_read fs.device (block_num * fs.block_size) fs.block_size

/-- ext4_file_size: the 64-bit size, lo | hi << 32. -/
def ext4_file_size (inode : Ext4Inode) : Nat :=
  inode.i_size_lo + 2 ^ 32 * inode.i_size_high

/-- ext4_read_inode: group = (num-1)/inodes_per_group (must be in range),
inode table located via the group descriptor's lo/hi split, then the record
parsed out of the containing block.  The C code indexes the descriptor table
with the sizeof(ext4_group_desc_t) = 64 stride. -/
def ext4_read_inode (fs : Ext4Fs) (inode_num : Nat) : Option Ext4Inode :=
  if inode_num < 1 then none
  else
    let group := (inode_num - 1) / fs.inodes_per_group
    if fs.groups_count ≤ group then none
    else
      let gd := group * 64
      let inode_table_block := le32 fs.group_desc_table (gd + 8)
        + 2 ^ 32 * le32 fs.group_desc_table (gd + 40)
      let index := (inode_num - 1) % fs.inodes_per_group
      let inode_block := inode_table_block + index * fs.sb.s_inode_size / fs.block_size
      match ext4_read_block fs inode_block with
      | none => none
      | some blk => some (parseInode blk (index * fs.sb.s_inode_size % fs.block_size))

/-- Extent node header/entry accessors (12-byte header, 12-byte entries). -/
def eh_magic (b : List Nat) : Nat := le16 b 0

def eh_entries (b : List Nat) : Nat := le16 b 2

def eh_depth (b : List Nat) : Nat := le16 b 6

def ei_block (b : List Nat) (i : Nat) : Nat := le32 b (12 + 12 * i)

def ei_leaf (b : List Nat) (i : Nat) : Nat :=
  le32 b (12 + 12 * i + 4) + 2 ^ 32 * le16 b (12 + 12 * i + 8)

def ee_block (b : List Nat) (i : Nat) : Nat := le32 b (12 + 12 * i)

def ee_len (b : List Nat) (i : Nat) : Nat := le16 b (12 + 12 * i + 4)

def ee_start (b : List Nat) (i : Nat) : Nat :=
  le32 b (12 + 12 * i + 8) + 2 ^ 32 * le16 b (12 + 12 * i + 6)

/-- The internal-node index-selection loop of ext4_read_extent_block: starting
at i, advance while `i < entries - 1` and `block_num >= index[i+1].ei_block`,
then stop at the current i. -/
def pickIndexGo (buf : List Nat) (entries blk : Nat) : Nat → Nat → Nat
  | i, 0 => i
  | i, fuel + 1 =>
    if i + 1 < entries ∧ ei_block buf (i + 1) ≤ blk then
      pickIndexGo buf entries blk (i + 1) fuel
    else i

def pickIndex (buf : List Nat) (entries blk : Nat) : Nat :=
  pickIndexGo buf entries blk 0 entries

/-- The leaf scan: linear search for the extent whose
`[ee_block, ee_block + ee_len)` contains the block; the physical block is
`extent start + (block - ee_block)`. -/
def extentLeafFind (buf : List Nat) (entries blk : Nat) : Nat → Nat → Option Nat
  | _, 0 => none
  | i, fuel + 1 =>
    if entries ≤ i then none
    else if ee_block buf i ≤ blk ∧ blk < ee_block buf i + ee_len buf i then
      some (ee_start buf i + (blk - ee_block buf i))
    else extentLeafFind buf entries blk (i + 1) fuel

/-- The `while (depth > 0)` descent.  The C code reads eh_depth once from the
root and decrements a counter, ignoring the depth fields of child nodes; the
recursion here is on that same counter.  Each loaded child must carry the
extent-header magic. -/
def extentDescend (fs : Ext4Fs) (blk : Nat) : List Nat → Nat → Option (List Nat)
  | buf, 0 => some buf
  | buf, d + 1 =>
    let entries := eh_entries buf
    let i := pickIndex buf entries blk
    if entries ≤ i then none
    else
      match ext4_read_block fs (ei_leaf buf i) with
      | none => none
      | some nb =>
        if eh_magic nb = EXT4_EXTENT_HEADER_MAGIC then extentDescend fs blk nb d
        else none

/-- ext4_read_extent_block: requires the extents incompat feature and the
inode's extents flag, validates the root magic, descends, then scans the
leaf. -/
def ext4_read_extent_block (fs : Ext4Fs) (inode : Ext4Inode) (block_num : Nat) :
    Option Nat :=
  if fs.sb.s_feature_incompat &&& EXT4_FEATURE_INCOMPAT_EXTENTS = 0 then none
  else if inode.i_flags &&& EXT4_EXTENTS_FL = 0 then none
  else if eh_magic inode.i_block ≠ EXT4_EXTENT_HEADER_MAGIC then none
  else
    match extentDescend fs block_num inode.i_block (eh_depth inode.i_block) with
    | none => none
    | some leaf =>
      extentLeafFind leaf (eh_entries leaf) block_num 0 (eh_entries leaf + 1)

/-- ext4_read_file_block: a logical block at or past
ceil(file_size / block_size) is satisfied as an all-zero block with success
and no device access; otherwise extent resolution then a device read (the
non-extent path is unimplemented and fails). -/
def ext4_read_file_block (fs : Ext4Fs) (inode : Ext4Inode) (block_num : Nat) :
    Option (List Nat) :=
  let file_size := ext4_file_size inode
  let max_block := (file_size + fs.block_size - 1) / fs.block_size
  if max_block ≤ block_num then some (List.replicate fs.block_size 0)
  else if fs.sb.s_feature_incompat &&& EXT4_FEATURE_INCOMPAT_EXTENTS ≠ 0 then
    match ext4_read_extent_block fs inode block_num with
    | none => none
    | some phys => ext4_read_block fs phys
  else none

/-- The block-copy loop of ext4_read_file_data; `acc` plays the role of the
destination buffer and `acc.length` of `bytes_read`. -/
def readFileLoop (fs : Ext4Fs) (inode : Ext4Inode)
    (start_block start_offset size : Nat) :
    Nat → Nat → List Nat → Option (List Nat)
  | 0, _, acc => some acc
  | n + 1, i, acc =>
    match ext4_read_file_block fs inode (start_block + i) with
    | none => none
    | some blkbuf =>
      let block_offset := if i = 0 then start_offset else 0
      let btc0 := fs.block_size - block_offset
      let btc := if size < acc.length + btc0 then size - acc.length else btc0
      let acc2 := acc ++ (blkbuf.drop block_offset).take btc
      if size ≤ acc2.length then some acc2
      else readFileLoop fs inode start_block start_offset size n (i + 1) acc2

/-- ext4_read_file_data: clips the size at the 64-bit file size, then copies
block by block with a partial first and last block; the returned list is the
bytes written to the caller's buffer (empty at or past EOF). -/
def ext4_read_file_data (fs : Ext4Fs) (inode : Ext4Inode) (offset size : Nat) :
    Option (List Nat) :=
  let file_size := ext4_file_size inode
  if file_size ≤ offset then some []
  else
    let size := if file_size < offset + size then file_size - offset else size
    let start_block := offset / fs.block_size
    let start_offset := offset % fs.block_size
    let end_pos := offset + size
    let end_block := (end_pos - 1) / fs.block_size
    let num_blocks := end_block - start_block + 1
    readFileLoop fs inode start_block start_offset size num_blocks 0 []

/-- The name bytes of the packed directory entry starting at `off` (the name
begins 8 bytes into the record). -/
def nameBytes (blk : List Nat) (off len : Nat) : List Nat :=
  (List.range len).map fun i => bget blk (off + 8 + i)

/-- The inner block scan of ext4_find_dir_entry: packed records, stop on a
zero rec_len, skip entries with inode 0, match by exact length then exact
bytes (the C strncmp over name_len bytes; names here are NUL-free). -/
def dirScanBlock (blk : List Nat) (bs : Nat) (name : List Nat) :
    Nat → Nat → Option Nat
  | _, 0 => none
  | off, fuel + 1 =>
    if bs ≤ off then none
    else
      let rec_len := le16 blk (off + 4)
      if rec_len = 0 then none
      else
        let ino := le32 blk off
        let name_len := bget blk (off + 6)
        if ino ≠ 0 ∧ name_len = name.length ∧ nameBytes blk off name_len = name
        then some ino
        else dirScanBlock blk bs name (off + rec_len) fuel

def findDirGo (fs : Ext4Fs) (inode : Ext4Inode) (name : List Nat) :
    Nat → Nat → Option Nat
  | 0, _ => none
  | n + 1, idx =>
    match ext4_read_file_block fs inode idx with
    | none => none
    | some blk =>
      match dirScanBlock blk fs.block_size name 0 (fs.block_size + 1) with
      | some ino => some ino
      | none => findDirGo fs inode name n (idx + 1)

/-- ext4_find_dir_entry: walk all ceil(dir_size / block_size) logical blocks
via ext4_read_file_block, scanning each; none when no block contains a
matching entry. -/
def ext4_find_dir_entry (fs : Ext4Fs) (dir_inode : Ext4Inode)
    (name : List Nat) : Option Nat :=
  let dir_size := ext4_file_size dir_inode
  let num_blocks := (dir_size + fs.block_size - 1) / fs.block_size
  findDirGo fs dir_inode name num_blocks 0

/-- The dirent filled in by ext4_readdir (the written name bytes, always
ending in the terminating NUL byte). -/
structure VfsDirent where
  inode : Nat
  ftype : Nat
  name : List Nat
deriving DecidableEq

/-- The file_type switch of ext4_readdir. -/
def vfs_type_of_ft (ft : Nat) : Nat :=
  if ft = 1 then VFS_FILE
  else if ft = 2 then VFS_DIRECTORY
  else if ft = 7 then VFS_SYMLINK
  else if ft = 3 then VFS_CHARDEVICE
  else if ft = 4 then VFS_BLOCKDEVICE
  else if ft = 5 then VFS_PIPE
  else if ft = 6 then VFS_SOCKET
  else VFS_FILE

inductive DirScanStep where
  | found : VfsDirent → DirScanStep
  | next : Nat → DirScanStep
deriving DecidableEq

/-- The inner block scan of ext4_readdir: counts valid (inode ≠ 0) entries,
and at the requested index copies the entry, truncating the name to
VFS_NAME_MAX bytes and NUL-terminating it. -/
def readdirScanBlock (blk : List Nat) (bs index : Nat) :
    Nat → Nat → Nat → DirScanStep
  | entry_idx, _, 0 => DirScanStep.next entry_idx
  | entry_idx, off, fuel + 1 =>
    if bs ≤ off then DirScanStep.next entry_idx
    else
      let rec_len := le16 blk (off + 4)
      if rec_len = 0 then DirScanStep.next entry_idx
      else
        let ino := le32 blk off
        if ino ≠ 0 then
          if entry_idx = index then
            let name_len := min (bget blk (off + 6)) VFS_NAME_MAX
            DirScanStep.found
              ⟨ino, vfs_type_of_ft (bget blk (off + 7)),
                nameBytes blk off name_len ++ [0]⟩
          else readdirScanBlock blk bs index (entry_idx + 1) (off + rec_len) fuel
        else readdirScanBlock blk bs index entry_idx (off + rec_len) fuel

def readdirGo (fs : Ext4Fs) (inode : Ext4Inode) (index : Nat) :
    Nat → Nat → Nat → Option VfsDirent
  | 0, _, _ => none
  | n + 1, blk_idx, entry_idx =>
    match ext4_read_file_block fs inode blk_idx with
    | none => none
    | some blk =>
      match readdirScanBlock blk fs.block_size index entry_idx 0
          (fs.block_size + 1) with
      | DirScanStep.found d => some d
      | DirScanStep.next entry_idx2 => readdirGo fs inode index n (blk_idx + 1) entry_idx2

/-- ext4_readdir: the index-th valid entry over all directory blocks. -/
def ext4_readdir (fs : Ext4Fs) (dir_inode : Ext4Inode) (index : Nat) :
    Option VfsDirent :=
  let dir_size := ext4_file_size dir_inode
  let num_blocks := (dir_size + fs.block_size - 1) / fs.block_size
  readdirGo fs dir_inode index num_blocks 0 0

end FreeCore

namespace FreeCore

/-! ### mount / unmount with allocation accounting

`ext4_mount` is modelled with an abstract allocator (fresh identifiers plus a
failure oracle) so that the claim "no state is retained after a failed mount"
can be stated as equality of the live-allocation list.  The scratch buffer
inside `ext4_read_inode` is freed on every path of the C code and is not
tracked. -/

structure AllocSt where
  next : Nat
  live : List Nat
  failAt : Nat → Bool

def amalloc (st : AllocSt) : Option Nat × AllocSt :=
  if st.failAt st.next then (none, { st with next := st.next + 1 })
  else (some st.next, { st with next := st.next + 1, live := st.next :: st.live })

def afree (st : AllocSt) (id : Nat) : AllocSt :=
  { st with live := st.live.erase id }

/-- The group-descriptor-table read loop: `gdesc_blocks` consecutive device
blocks starting at `start`, concatenated; fails if any single read fails. -/
def readBlocksSeq (d : BlockDevice) (bs : Nat) : Nat → Nat → Option (List Nat)
  | _, 0 => some []
  | start, n + 1 =>
    match blockdev_read d (start * bs) bs with
    | none => none
    | some b =>
      match readBlocksSeq d bs (start + 1) n with
      | none => none
      | some rest => some (b ++ rest)

/-- A successful mount: the filesystem state, the identifiers of the four
retained allocations (fs handle, descriptor table, root node, inode info) and
the parsed root inode. -/
structure MountedFs where
  fs : Ext4Fs
  fsId : Nat
  gdtId : Nat
  rootId : Nat
  infoId : Nat
  root_inode : Ext4Inode

/-- ext4_mount: allocate the handle, read and validate the superblock
(the sb scratch buffer is freed right after the copy), derive the geometry
(with the uint32 truncations of the C arithmetic), read the descriptor table,
allocate and fill the root node; every failure path frees exactly what was
allocated before returning. -/
def ext4_mount (d : BlockDevice) (st : AllocSt) : Option MountedFs × AllocSt :=
  match amalloc st with
  | (none, st) => (none, st)
  | (some fsId, st) =>
    match amalloc st with
    | (none, st) => (none, afree st fsId)
    | (some sbId, st) =>
      match blockdev_read d EXT4_SUPERBLOCK_OFFSET 1024 with
      | none => (none, afree (afree st sbId) fsId)
      | some sbBytes =>
        let sb := parseSuperblock sbBytes
        let st := afree st sbId
        if sb.s_magic ≠ EXT4_SUPER_MAGIC then (none, afree st fsId)
        else
          let block_size := 1024 <<< sb.s_log_block_size
          let block_count := sb.s_blocks_count_lo + 2 ^ 32 * sb.s_blocks_count_hi
          let groups_count :=
            (block_count + sb.s_blocks_per_group - 1) / sb.s_blocks_per_group % U32
          let gdesc_size := if sb.s_desc_size = 0 then 32 else sb.s_desc_size
          let gdesc_table_size := groups_count * gdesc_size % U32
          let gdesc_blocks := (gdesc_table_size + block_size - 1) % U32 / block_size
          match amalloc st with
          | (none, st) => (none, afree st fsId)
          | (some gdtId, st) =>
            match readBlocksSeq d block_size (sb.s_first_data_block + 1) gdesc_blocks with
            | none => (none, afree (afree st gdtId) fsId)
            | some gdt =>
              let fs : Ext4Fs :=
                { device := d, sb := sb, block_size := block_size
                  block_count := block_count, groups_count := groups_count
                  inodes_per_group := sb.s_inodes_per_group
                  blocks_per_group := sb.s_blocks_per_group
                  group_desc_table := gdt }
              match amalloc st with
              | (none, st) => (none, afree (afree st gdtId) fsId)
              | (some rootId, st) =>
                match ext4_read_inode fs EXT4_ROOT_INO with
                | none => (none, afree (afree (afree st rootId) gdtId) fsId)
                | some ind =>
                  match amalloc st with
                  | (none, st) =>
                    (none, afree (afree (afree st rootId) gdtId) fsId)
                  | (some infoId, st) =>
                    (some ⟨fs, fsId, gdtId, rootId, infoId, ind⟩, st)

end FreeCore

namespace FreeCore

/-! ### Concrete filesystem fixtures -/

/-- Extent-root bytes: header {magic 0xF30A, entries 1, max 4, depth 0} and
one extent {ee_block 0, ee_len 10, ee_start 500}. -/
def iblock6 : List Nat :=
  [0x0A, 0xF3, 1, 0, 4, 0, 0, 0, 0, 0, 0, 0,
   0, 0, 0, 0, 10, 0, 0, 0, 0xF4, 0x01, 0, 0] ++ List.replicate 36 0

/-- A regular-file inode of size 10 * block_size using extents. -/
def inode6 : Ext4Inode :=
  { i_mode := 0x8000, i_size_lo := 10240, i_flags := 0x80000
    i_block := iblock6, i_size_high := 0 }

/-- A device whose byte at offset `o` is `o % 256` (identifiable content). -/
def dev6 : BlockDevice := { data := fun off => off % 256, fail := fun _ _ => false }

def sb6 : Ext4Superblock :=
  { s_blocks_count_lo := 8192, s_first_data_block := 1, s_log_block_size := 0
    s_blocks_per_group := 8192, s_inodes_per_group := 8, s_magic := 0xEF53
    s_inode_size := 256, s_feature_incompat := 0x40, s_desc_size := 0
    s_blocks_count_hi := 0 }

def fs6 : Ext4Fs :=
  { device := dev6, sb := sb6, block_size := 1024, block_count := 8192
    groups_count := 1, inodes_per_group := 8, blocks_per_group := 8192
    group_desc_table := [] }

/-- One directory data block: entries {2, "."}, {2, ".."}, {13, "foo.txt"}
with rec_len 12, 12 and 1000 (packing the block exactly). -/
def dirBlockBytes : List Nat :=
  [2, 0, 0, 0, 12, 0, 1, 2, 46, 0, 0, 0,
   2, 0, 0, 0, 12, 0, 2, 2, 46, 46, 0, 0,
   13, 0, 0, 0, 232, 3, 7, 1, 102, 111, 111, 46, 116, 120, 116]

/-- A device serving the directory block as physical block 500. -/
def dev8 : BlockDevice :=
  { data := fun off =>
      if 500 * 1024 ≤ off ∧ off < 501 * 1024 then dirBlockBytes.getD (off - 500 * 1024) 0
      else 0
    fail := fun _ _ => false }

/-- Extent-root bytes with one extent {ee_block 0, ee_len 1, ee_start 500}. -/
def iblock8 : List Nat :=
  [0x0A, 0xF3, 1, 0, 4, 0, 0, 0, 0, 0, 0, 0,
   0, 0, 0, 0, 1, 0, 0, 0, 0xF4, 0x01, 0, 0] ++ List.replicate 36 0

/-- A one-block directory inode using extents. -/
def inode8 : Ext4Inode :=
  { i_mode := 0x4000, i_size_lo := 1024, i_flags := 0x80000
    i_block := iblock8, i_size_high := 0 }

def fs8 : Ext4Fs :=
  { device := dev8, sb := sb6, block_size := 1024, block_count := 8192
    groups_count := 1, inodes_per_group := 8, blocks_per_group := 8192
    group_desc_table := [] }

/-- C7: a read of any logical block at or past ceil(file_size / block_size)
is satisfied as an all-zero block of block_size bytes and reports success —
never an error and never a device read (the result is the same for every
filesystem value, in particular for devices whose every read fails). -/
theorem C7_sparse_read_past_eof (fs : Ext4Fs) (inode : Ext4Inode) (blk : Nat)
    (hblk : (ext4_file_size inode + fs.block_size - 1) / fs.block_size ≤ blk) :
    ext4_read_file_block fs inode blk = some (List.replicate fs.block_size 0) := by
  unfold ext4_read_file_block
  rw [if_pos hblk]

/-- C7 witness: block 10 of the ten-block file reads as zeros, also on a
device whose every read fails. -/
theorem C7_witness :
    (ext4_file_size inode6 + fs6.block_size - 1) / fs6.block_size ≤ 10 ∧
    ext4_read_file_block fs6 inode6 10 = some (List.replicate fs6.block_size 0) ∧
    ((ext4_file_size inode6
        + ({ fs6 with device := { data := fun _ => 0, fail := fun _ _ => true } }
            : Ext4Fs).block_size - 1)
      / ({ fs6 with device := { data := fun _ => 0, fail := fun _ _ => true } }
            : Ext4Fs).block_size ≤ 10 ∧
      ext4_read_file_block
        { fs6 with device := { data := fun _ => 0, fail := fun _ _ => true } }
        inode6 10
        = some (List.replicate
            ({ fs6 with device := { data := fun _ => 0, fail := fun _ _ => true } }
              : Ext4Fs).block_size 0)) :=
  ⟨by decide, C7_sparse_read_past_eof fs6 inode6 10 (by decide),
   by decide, C7_sparse_read_past_eof
     { fs6 with device := { data := fun _ => 0, fail := fun _ _ => true } }
     inode6 10 (by decide)⟩

set_option maxRecDepth 40000 in
/-- C8: directory lookup scans packed entries in order, stops a block scan on
a zero rec_len, skips inode-0 entries, and matches by exact length and bytes.
On the concrete block {2,"."}{2,".."}{13,"foo.txt"}, looking up "foo.txt"
yields inode 13 and "missing" is not found. -/
theorem C8_find_dir_entry :
    ext4_find_dir_entry fs8 inode8 [102, 111, 111, 46, 116, 120, 116] = some 13 ∧
    ext4_find_dir_entry fs8 inode8 [109, 105, 115, 115, 105, 110, 103] = none ∧
    (∀ (blk : List Nat) (bs : Nat) (name : List Nat) (off fuel : Nat),
      off < bs → le16 blk (off + 4) = 0 →
      dirScanBlock blk bs name off (fuel + 1) = none) ∧
    (∀ (blk : List Nat) (bs : Nat) (name : List Nat) (off fuel : Nat),
      off < bs → le16 blk (off + 4) ≠ 0 → le32 blk off = 0 →
      dirScanBlock blk bs name off (fuel + 1)
        = dirScanBlock blk bs name (off + le16 blk (off + 4)) fuel) := by
  refine ⟨by decide, by decide, ?_, ?_⟩
  · intro blk bs name off fuel h1 h2
    unfold dirScanBlock
    rw [if_neg (by omega), if_pos h2]
  · intro blk bs name off fuel h1 h2 h3
    conv_lhs => rw [dirScanBlock]
    rw [if_neg (by omega), if_neg h2, if_neg (by simp [h3])]

/-- C8 witness: the zero-rec_len early stop and the inode-0 skip, checked on
a concrete block. -/
theorem C8_witness :
    ((0:Nat) < 8 ∧ le16 [1, 0, 0, 0, 0, 0] 4 = 0 ∧
      dirScanBlock [1, 0, 0, 0, 0, 0] 8 [] 0 (7 + 1) = none) ∧
    ((0:Nat) < 24 ∧ le16 [0, 0, 0, 0, 12, 0, 0, 0] 4 ≠ 0 ∧
      le32 [0, 0, 0, 0, 12, 0, 0, 0] 0 = 0 ∧
      dirScanBlock [0, 0, 0, 0, 12, 0, 0, 0] 24 [] 0 (7 + 1)
        = dirScanBlock [0, 0, 0, 0, 12, 0, 0, 0] 24 []
            (0 + le16 [0, 0, 0, 0, 12, 0, 0, 0] 4) 7) :=
  ⟨⟨by decide, by decide,
    C8_find_dir_entry.2.2.1 [1, 0, 0, 0, 0, 0] 8 [] 0 7 (by decide) (by decide)⟩,
   ⟨by decide, by decide, by decide,
    C8_find_dir_entry.2.2.2 [0, 0, 0, 0, 12, 0, 0, 0] 24 [] 0 7 (by decide)
      (by decide) (by decide)⟩⟩

/-- A device with a valid superblock magic, feature_incompat = 0 (extents bit
clear), one block group, the inode table at block 5, and a root inode of size
1024 bytes. -/
def dev10 : BlockDevice :=
  { data := fun off =>
      ((([(1028, 16), (1056, 16), (1064, 8), (1080, 0x53), (1081, 0xEF),
          (1044, 1), (1113, 1), (2056, 5), (5381, 4)] :
          List (Nat × Nat)).lookup off).getD 0)
    fail := fun _ _ => false }

def st0 : AllocSt := { next := 0, live := [], failAt := fun _ => false }

def dummyMounted : MountedFs :=
  { fs := { device := dev10, sb := parseSuperblock [], block_size := 0
            block_count := 0, groups_count := 0, inodes_per_group := 0
            blocks_per_group := 0, group_desc_table := [] }
    fsId := 0, gdtId := 0, rootId := 0, infoId := 0
    root_inode := parseInode [] 0 }

def mounted10 : MountedFs := ((ext4_mount dev10 st0).1).getD dummyMounted

set_option maxRecDepth 40000

/-- C10: mount never inspects the incompatible-feature extents bit: the
device dev10, whose superblock magic is valid but whose incompat bitmask
lacks the extents flag, mounts successfully (retaining the four structures);
the unsupported-layout failure only arises later, at the first
ext4_read_file_block of an in-range block (here block 0 of the 1024-byte
root), or at extent resolution. -/
theorem C10_mount_ignores_extents_bit :
    ((ext4_mount dev10 st0).1).isSome = true ∧
    (ext4_mount dev10 st0).2.live.length = 4 ∧
    mounted10.fs.sb.s_magic = EXT4_SUPER_MAGIC ∧
    mounted10.fs.sb.s_feature_incompat &&& EXT4_FEATURE_INCOMPAT_EXTENTS = 0 ∧
    ext4_file_size mounted10.root_inode = 1024 ∧
    (0:Nat) < (ext4_file_size mounted10.root_inode + mounted10.fs.block_size - 1)
      / mounted10.fs.block_size ∧
    ext4_read_file_block mounted10.fs mounted10.root_inode 0 = none ∧
    ext4_read_extent_block mounted10.fs mounted10.root_inode 0 = none ∧
    (∀ (fs : Ext4Fs) (inode : Ext4Inode) (blk : Nat),
      fs.sb.s_feature_incompat &&& EXT4_FEATURE_INCOMPAT_EXTENTS = 0 →
      blk < (ext4_file_size inode + fs.block_size - 1) / fs.block_size →
      ext4_read_file_block fs inode blk = none) ∧
    (∀ (fs : Ext4Fs) (inode : Ext4Inode) (blk : Nat),
      fs.sb.s_feature_incompat &&& EXT4_FEATURE_INCOMPAT_EXTENTS = 0 →
      ext4_read_extent_block fs inode blk = none) := by
  refine ⟨by decide, by decide, by decide, by decide, by decide, by decide,
    by decide, by decide, ?_, ?_⟩
  · intro fs inode blk hfeat hblk
    unfold ext4_read_file_block
    simp only []
    rw [if_neg (Nat.not_le.mpr hblk), if_neg (by simp [hfeat])]
  · intro fs inode blk hfeat
    unfold ext4_read_extent_block
    rw [if_pos hfeat]

/-- C10 witness: on the mounted dev10 filesystem, whose extents bit is
clear, reading in-range block 0 of the root inode fails only at that point:
both the block read and the extent resolution report the error. -/
theorem C10_witness :
    (mounted10.fs.sb.s_feature_incompat &&& EXT4_FEATURE_INCOMPAT_EXTENTS = 0 ∧
      (0:Nat) < (ext4_file_size mounted10.root_inode + mounted10.fs.block_size - 1)
        / mounted10.fs.block_size) ∧
    ext4_read_file_block mounted10.fs mounted10.root_inode 0 = none ∧
    ext4_read_extent_block mounted10.fs mounted10.root_inode 0 = none :=
  ⟨⟨by decide, by decide⟩,
   C10_mount_ignores_extents_bit.2.2.2.2.2.2.2.2.1 mounted10.fs
     mounted10.root_inode 0 (by decide) (by decide),
   C10_mount_ignores_extents_bit.2.2.2.2.2.2.2.2.2 mounted10.fs
     mounted10.root_inode 0 (by decide)⟩

end FreeCore

namespace FreeCore

set_option maxRecDepth 100000

/-- Under ascending starting-block order, ei_block is monotone. -/
theorem ei_block_mono {buf : List Nat} {entries : Nat}
    (hsort : ∀ j, j + 1 < entries → ei_block buf j ≤ ei_block buf (j + 1)) :
    ∀ j k, j ≤ k → k < entries → ei_block buf j ≤ ei_block buf k := by
  intro j k
  induction k with
  | zero =>
    intro hjk _
    have hj : j = 0 := by omega
    rw [hj]
  | succ k ih =>
    intro hjk hk
    rcases Nat.lt_or_ge j (k + 1) with hlt | hge
    · exact Nat.le_trans (ih (by omega) (by omega)) (hsort k hk)
    · have hj : j = k + 1 := by omega
      rw [hj]

/-- The index-advance loop stops at an in-range entry whose logical start is
at most the target, and (given sortedness) no later reachable entry with that
property is skipped. -/
theorem pickIndexGo_spec {buf : List Nat} {entries blk : Nat}
    (hsort : ∀ j, j + 1 < entries → ei_block buf j ≤ ei_block buf (j + 1)) :
    ∀ (fuel i : Nat), i < entries → ei_block buf i ≤ blk →
      i ≤ pickIndexGo buf entries blk i fuel ∧
      pickIndexGo buf entries blk i fuel < entries ∧
      ei_block buf (pickIndexGo buf entries blk i fuel) ≤ blk ∧
      (∀ j, j ≤ i + fuel → j < entries → ei_block buf j ≤ blk →
        j ≤ pickIndexGo buf entries blk i fuel) := by
  intro fuel
  induction fuel with
  | zero =>
    intro i hi hib
    simp only [pickIndexGo]
    exact ⟨Nat.le_refl _, hi, hib, fun j hj _ _ => by omega⟩
  | succ fuel ih =>
    intro i hi hib
    simp only [pickIndexGo]
    by_cases hc : i + 1 < entries ∧ ei_block buf (i + 1) ≤ blk
    · rw [if_pos hc]
      obtain ⟨h1, h2, h3, h4⟩ := ih (i + 1) hc.1 hc.2
      refine ⟨by omega, h2, h3, ?_⟩
      intro j hj hj2 hj3
      rcases Nat.lt_or_ge j (i + 1) with h | h
      · omega
      · exact h4 j (by omega) hj2 hj3
    · rw [if_neg hc]
      push_neg at hc
      refine ⟨Nat.le_refl _, hi, hib, ?_⟩
      intro j hj hj2 hj3
      by_contra hgt
      push_neg at hgt
      have hi1 : i + 1 < entries := by omega
      have hlt := hc hi1
      have hmono := ei_block_mono hsort (i + 1) j (by omega) hj2
      omega

/-- The leaf scan returns the first covering extent's mapping. -/
theorem extentLeafFind_hit {buf : List Nat} {entries blk : Nat} :
    ∀ (fuel i tgt : Nat), i ≤ tgt → tgt < entries → tgt - i < fuel →
      (∀ j, i ≤ j → j < tgt →
        ¬(ee_block buf j ≤ blk ∧ blk < ee_block buf j + ee_len buf j)) →
      ee_block buf tgt ≤ blk → blk < ee_block buf tgt + ee_len buf tgt →
      extentLeafFind buf entries blk i fuel
        = some (ee_start buf tgt + (blk - ee_block buf tgt)) := by
  intro fuel
  induction fuel with
  | zero =>
    intro i tgt h1 h2 h3 _ _ _
    omega
  | succ fuel ih =>
    intro i tgt h1 h2 h3 hnone hlo hhi
    simp only [extentLeafFind]
    rw [if_neg (by omega)]
    by_cases he : i = tgt
    · subst he
      rw [if_pos ⟨hlo, hhi⟩]
    · rw [if_neg (hnone i (Nat.le_refl _) (by omega))]
      exact ih (i + 1) tgt (by omega) h2 (by omega)
        (fun j hj1 hj2 => hnone j (by omega) hj2) hlo hhi

/-- The leaf scan fails when no extent covers the block. -/
theorem extentLeafFind_miss {buf : List Nat} {entries blk : Nat} :
    ∀ (fuel i : Nat),
      (∀ j, i ≤ j → j < entries →
        ¬(ee_block buf j ≤ blk ∧ blk < ee_block buf j + ee_len buf j)) →
      extentLeafFind buf entries blk i fuel = none := by
  intro fuel
  induction fuel with
  | zero =>
    intro i _
    simp only [extentLeafFind]
  | succ fuel ih =>
    intro i hnone
    simp only [extentLeafFind]
    by_cases hc : entries ≤ i
    · rw [if_pos hc]
    · rw [if_neg hc, if_neg (hnone i (Nat.le_refl _) (by omega))]
      exact ih (i + 1) fun j hj1 hj2 => hnone j (by omega) hj2

/-- C6: extent resolution.  (a) internal-node descent selects the last index
entry whose starting logical block does not exceed the target (under the
on-disk ascending order); (b) the leaf scan maps a covered block b to
ee_start + (b - ee_block) of the first covering extent; (c) the leaf scan
errors when no extent covers b; (d) an invalid header magic at the root, or
at a loaded child node, makes resolution fail; (e) concretely, with one
extent {ee_block 0, ee_len 10, ee_start 500} on a 10-block file,
read_file_data at offset block_size*9 + 100 for 50 bytes returns exactly the
50 device bytes of physical block 509 starting at byte offset 100. -/
theorem C6_extent_resolution :
    (∀ (buf : List Nat) (entries blk : Nat), 0 < entries →
      (∀ j, j + 1 < entries → ei_block buf j ≤ ei_block buf (j + 1)) →
      ei_block buf 0 ≤ blk →
      pickIndex buf entries blk < entries ∧
      ei_block buf (pickIndex buf entries blk) ≤ blk ∧
      (∀ j, j < entries → ei_block buf j ≤ blk →
        j ≤ pickIndex buf entries blk)) ∧
    (∀ (leaf : List Nat) (blk i : Nat), i < eh_entries leaf →
      ee_block leaf i ≤ blk → blk < ee_block leaf i + ee_len leaf i →
      (∀ j, j < i →
        ¬(ee_block leaf j ≤ blk ∧ blk < ee_block leaf j + ee_len leaf j)) →
      extentLeafFind leaf (eh_entries leaf) blk 0 (eh_entries leaf + 1)
        = some (ee_start leaf i + (blk - ee_block leaf i))) ∧
    (∀ (leaf : List Nat) (blk : Nat),
      (∀ j, j < eh_entries leaf →
        ¬(ee_block leaf j ≤ blk ∧ blk < ee_block leaf j + ee_len leaf j)) →
      extentLeafFind leaf (eh_entries leaf) blk 0 (eh_entries leaf + 1)
        = none) ∧
    (∀ (fs : Ext4Fs) (inode : Ext4Inode) (blk : Nat),
      eh_magic inode.i_block ≠ EXT4_EXTENT_HEADER_MAGIC →
      ext4_read_extent_block fs inode blk = none) ∧
    (∀ (fs : Ext4Fs) (blk : Nat) (buf nb : List Nat) (d : Nat),
      ext4_read_block fs (ei_leaf buf (pickIndex buf (eh_entries buf) blk))
        = some nb →
      eh_magic nb ≠ EXT4_EXTENT_HEADER_MAGIC →
      extentDescend fs blk buf (d + 1) = none) ∧
    ext4_read_file_data fs6 inode6 (1024 * 9 + 100) 50
      = some ((List.range 50).map fun i => (509 * 1024 + 100 + i) % 256) := by
  refine ⟨?_, ?_, ?_, ?_, ?_, by decide⟩
  · intro buf entries blk hpos hsort h0
    obtain ⟨h1, h2, h3, h4⟩ := pickIndexGo_spec hsort entries 0 hpos h0
    exact ⟨h2, h3, fun j hj hjb => h4 j (by omega) hj hjb⟩
  · intro leaf blk i hi hlo hhi hfirst
    exact extentLeafFind_hit (eh_entries leaf + 1) 0 i (by omega) hi (by omega)
      (fun j _ hj2 => hfirst j hj2) hlo hhi
  · intro leaf blk hnone
    exact extentLeafFind_miss (eh_entries leaf + 1) 0 fun j _ hj2 => hnone j hj2
  · intro fs inode blk hmagic
    unfold ext4_read_extent_block
    by_cases h1 : fs.sb.s_feature_incompat &&& EXT4_FEATURE_INCOMPAT_EXTENTS = 0
    · rw [if_pos h1]
    · rw [if_neg h1]
      by_cases h2 : inode.i_flags &&& EXT4_EXTENTS_FL = 0
      · rw [if_pos h2]
      · rw [if_neg h2, if_pos hmagic]
  · intro fs blk buf nb d hread hnb
    unfold extentDescend
    by_cases hi : eh_entries buf ≤ pickIndex buf (eh_entries buf) blk
    · rw [if_pos hi]
    · rw [if_neg hi]
      simp only [hread]
      rw [if_neg hnb]

end FreeCore

namespace FreeCore

set_option maxRecDepth 100000

/-- An internal extent node: header {magic, entries 2, depth 1}; index
entries {ei_block 0, leaf 100} and {ei_block 5, leaf 101}. -/
def idxBuf : List Nat :=
  [0x0A, 0xF3, 2, 0, 4, 0, 1, 0, 0, 0, 0, 0,
   0, 0, 0, 0, 100, 0, 0, 0, 0, 0, 0, 0,
   25, 0, 0, 0, 101, 0, 0, 0, 0, 0, 0, 0]

/-- The bytes of physical block 101 on dev6 (its header magic is not the
extent-header magic). -/
def block101 : List Nat := (List.range 1024).map fun k => (101 * 1024 + k) % 256

/-- C6 witness: the five general conjuncts applied at concrete nodes, with
every hypothesis checked by evaluation. -/
theorem C6_witness :
    ((0:Nat) < 2 ∧ ei_block idxBuf 0 ≤ 30 ∧
      pickIndex idxBuf 2 30 < 2 ∧ ei_block idxBuf (pickIndex idxBuf 2 30) ≤ 30) ∧
    ((0:Nat) < eh_entries iblock6 ∧ ee_block iblock6 0 ≤ 3 ∧
      (3:Nat) < ee_block iblock6 0 + ee_len iblock6 0 ∧
      extentLeafFind iblock6 (eh_entries iblock6) 3 0 (eh_entries iblock6 + 1)
        = some (ee_start iblock6 0 + (3 - ee_block iblock6 0))) ∧
    extentLeafFind iblock6 (eh_entries iblock6) 77 0 (eh_entries iblock6 + 1)
      = none ∧
    (eh_magic (List.replicate 60 0) ≠ EXT4_EXTENT_HEADER_MAGIC ∧
      ext4_read_extent_block fs6 { inode6 with i_block := List.replicate 60 0 } 0
        = none) ∧
    (ext4_read_block fs6 (ei_leaf idxBuf (pickIndex idxBuf (eh_entries idxBuf) 30))
        = some block101 ∧
      eh_magic block101 ≠ EXT4_EXTENT_HEADER_MAGIC ∧
      extentDescend fs6 30 idxBuf 1 = none) := by
  have hA := C6_extent_resolution.1 idxBuf 2 30 (by decide)
    (fun j hj => by
      have hj0 : j = 0 := by omega
      rw [hj0]
      decide)
    (by decide)
  refine ⟨⟨by decide, by decide, hA.1, hA.2.1⟩,
    ⟨by decide, by decide, by decide, ?_⟩, ?_, ⟨by decide, ?_⟩, by decide, by decide, ?_⟩
  · exact C6_extent_resolution.2.1 iblock6 3 0 (by decide) (by decide) (by decide)
      (fun j hj => absurd hj (Nat.not_lt_zero j))
  · exact C6_extent_resolution.2.2.1 iblock6 77
      (fun j hj => by
        have hj0 : j = 0 := by
          have he : eh_entries iblock6 = 1 := by decide
          omega
        rw [hj0]
        decide)
  · exact C6_extent_resolution.2.2.2.1 fs6
      { inode6 with i_block := List.replicate 60 0 } 0 (by decide)
  · exact C6_extent_resolution.2.2.2.2.1 fs6 30 idxBuf block101 0 (by decide)
      (by decide)

end FreeCore

namespace FreeCore

set_option maxRecDepth 100000

/-- Any dirent produced by the inner readdir block scan carries a name of the
form nameBytes(entry, min(name_len, VFS_NAME_MAX)) followed by a NUL. -/
theorem readdirScanBlock_found {blk : List Nat} {bs index : Nat} :
    ∀ (fuel entry_idx off : Nat) (d : VfsDirent),
      readdirScanBlock blk bs index entry_idx off fuel = DirScanStep.found d →
      ∃ o, d.name = nameBytes blk o (min (bget blk (o + 6)) VFS_NAME_MAX) ++ [0] := by
  intro fuel
  induction fuel with
  | zero =>
    intro entry_idx off d h
    simp only [readdirScanBlock] at h
    exact absurd h (by simp)
  | succ fuel ih =>
    intro entry_idx off d h
    simp only [readdirScanBlock] at h
    by_cases h1 : bs ≤ off
    · rw [if_pos h1] at h
      simp at h
    · rw [if_neg h1] at h
      by_cases h2 : le16 blk (off + 4) = 0
      · rw [if_pos h2] at h
        simp at h
      · rw [if_neg h2] at h
        by_cases h3 : le32 blk off ≠ 0
        · rw [if_pos h3] at h
          by_cases h4 : entry_idx = index
          · rw [if_pos h4] at h
            cases h
            exact ⟨off, rfl⟩
          · rw [if_neg h4] at h
            exact ih (entry_idx + 1) (off + le16 blk (off + 4)) d h
        · rw [if_neg h3] at h
          exact ih entry_idx (off + le16 blk (off + 4)) d h

/-- Any dirent produced by the readdir block loop has that same name form,
for some directory block. -/
theorem readdirGo_found {fs : Ext4Fs} {inode : Ext4Inode} {index : Nat} :
    ∀ (n blk_idx entry_idx : Nat) (d : VfsDirent),
      readdirGo fs inode index n blk_idx entry_idx = some d →
      ∃ blk o,
        d.name = nameBytes blk o (min (bget blk (o + 6)) VFS_NAME_MAX) ++ [0] := by
  intro n
  induction n with
  | zero =>
    intro blk_idx entry_idx d h
    simp only [readdirGo] at h
    exact absurd h (by simp)
  | succ n ih =>
    intro blk_idx entry_idx d h
    simp only [readdirGo] at h
    cases hr : ext4_read_file_block fs inode blk_idx with
    | none =>
      rw [hr] at h
      simp at h
    | some blk =>
      simp only [hr] at h
      cases hs : readdirScanBlock blk fs.block_size index entry_idx 0
          (fs.block_size + 1) with
      | found d2 =>
        simp only [hs] at h
        obtain ⟨o, ho⟩ := readdirScanBlock_found (fs.block_size + 1) entry_idx 0 d2 hs
        exact ⟨blk, o, (Option.some.inj h) ▸ ho⟩
      | next e2 =>
        simp only [hs] at h
        exact ih (blk_idx + 1) e2 d h

/-- C9: every dirent readdir returns has a name of at most VFS_NAME_MAX
on-disk bytes (truncating longer on-disk name_len values) followed by the
terminating NUL: the name list is at most VFS_NAME_MAX + 1 long, always ends
in 0, and is exactly a truncated on-disk name plus NUL, so the fixed dirent
name buffer is never overrun regardless of the on-disk name_len. -/
theorem C9_readdir_name_bounded (fs : Ext4Fs) (dir_inode : Ext4Inode)
    (index : Nat) (d : VfsDirent)
    (h : ext4_readdir fs dir_inode index = some d) :
    d.name.length ≤ VFS_NAME_MAX + 1 ∧ d.name.getLast? = some 0 ∧
    ∃ blk off,
      d.name = nameBytes blk off (min (bget blk (off + 6)) VFS_NAME_MAX) ++ [0] := by
  have h2 : readdirGo fs dir_inode index
      ((ext4_file_size dir_inode + fs.block_size - 1) / fs.block_size) 0 0
      = some d := h
  obtain ⟨blk, o, ho⟩ := readdirGo_found _ 0 0 d h2
  refine ⟨?_, ?_, blk, o, ho⟩
  · rw [ho]
    simp only [List.length_append, nameBytes, List.length_map, List.length_range,
      List.length_singleton]
    have e255 : VFS_NAME_MAX = 255 := rfl
    omega
  · rw [ho]
    exact List.getLast?_concat _

/-- C9 witness: the third entry of the concrete directory is returned with
the 7-byte name "foo.txt" plus NUL, within bounds and NUL-terminated. -/
theorem C9_witness :
    ext4_readdir fs8 inode8 2
      = some ⟨13, VFS_FILE, [102, 111, 111, 46, 116, 120, 116, 0]⟩ ∧
    (([102, 111, 111, 46, 116, 120, 116, 0] : List Nat).length ≤ VFS_NAME_MAX + 1 ∧
      ([102, 111, 111, 46, 116, 120, 116, 0] : List Nat).getLast? = some 0 ∧
      ∃ blk off, ([102, 111, 111, 46, 116, 120, 116, 0] : List Nat)
        = nameBytes blk off (min (bget blk (off + 6)) VFS_NAME_MAX) ++ [0]) :=
  ⟨by decide, C9_readdir_name_bounded fs8 inode8 2
    ⟨13, VFS_FILE, [102, 111, 111, 46, 116, 120, 116, 0]⟩ (by decide)⟩

end FreeCore

namespace FreeCore

theorem amalloc_none_live {st st1 : AllocSt} (h : amalloc st = (none, st1)) :
    st1.live = st.live := by
  unfold amalloc at h
  by_cases hf : st.failAt st.next
  · rw [if_pos hf] at h
    injection h with h1 h2
    rw [← h2]
  · rw [if_neg hf] at h
    injection h with h1 h2
    exact absurd h1 (by simp)

theorem amalloc_some_live {st st1 : AllocSt} {id : Nat}
    (h : amalloc st = (some id, st1)) : st1.live = id :: st.live := by
  unfold amalloc at h
  by_cases hf : st.failAt st.next
  · rw [if_pos hf] at h
    injection h with h1 h2
    exact absurd h1 (by simp)
  · rw [if_neg hf] at h
    injection h with h1 h2
    rw [← h2]
    show st.next :: st.live = id :: st.live
    rw [Option.some.inj h1]

theorem afree_live (st : AllocSt) (id : Nat) :
    (afree st id).live = st.live.erase id := rfl

/-- Every failing mount restores the live-allocation list exactly. -/
theorem ext4_mount_none_live (d : BlockDevice) (st : AllocSt)
    (h : (ext4_mount d st).1 = none) : (ext4_mount d st).2.live = st.live := by
  revert h
  unfold ext4_mount
  split
  · rename_i st1 heq1
    intro _
    exact amalloc_none_live heq1
  · rename_i fsId st1 heq1
    split
    · rename_i st2 heq2
      intro _
      rw [afree_live, amalloc_none_live heq2, amalloc_some_live heq1,
        List.erase_cons_head]
    · rename_i sbId st2 heq2
      split
      · intro _
        rw [afree_live, afree_live, amalloc_some_live heq2, List.erase_cons_head,
          amalloc_some_live heq1, List.erase_cons_head]
      · rename_i sbB heqR
        simp only []
        split
        · intro _
          rw [afree_live, afree_live, amalloc_some_live heq2, List.erase_cons_head,
            amalloc_some_live heq1, List.erase_cons_head]
        · split
          · rename_i st3 heq3
            intro _
            rw [afree_live, amalloc_none_live heq3, afree_live,
              amalloc_some_live heq2, List.erase_cons_head,
              amalloc_some_live heq1, List.erase_cons_head]
          · rename_i gdtId st3 heq3
            split
            · intro _
              rw [afree_live, afree_live, amalloc_some_live heq3, List.erase_cons_head,
                afree_live, amalloc_some_live heq2, List.erase_cons_head,
                amalloc_some_live heq1, List.erase_cons_head]
            · rename_i gdt heqG
              split
              · rename_i st4 heq4
                intro _
                rw [afree_live, afree_live, amalloc_none_live heq4,
                  amalloc_some_live heq3, List.erase_cons_head,
                  afree_live, amalloc_some_live heq2, List.erase_cons_head,
                  amalloc_some_live heq1, List.erase_cons_head]
              · rename_i rootId st4 heq4
                split
                · intro _
                  rw [afree_live, afree_live, afree_live,
                    amalloc_some_live heq4, List.erase_cons_head,
                    amalloc_some_live heq3, List.erase_cons_head,
                    afree_live, amalloc_some_live heq2, List.erase_cons_head,
                    amalloc_some_live heq1, List.erase_cons_head]
                · rename_i ind heqI
                  split
                  · rename_i st5 heq5
                    intro _
                    rw [afree_live, afree_live, afree_live,
                      amalloc_none_live heq5,
                      amalloc_some_live heq4, List.erase_cons_head,
                      amalloc_some_live heq3, List.erase_cons_head,
                      afree_live, amalloc_some_live heq2, List.erase_cons_head,
                      amalloc_some_live heq1, List.erase_cons_head]
                  · rename_i infoId st5 heq5
                    intro hc
                    exact absurd hc (by simp)

/-- A superblock whose magic is wrong fails the mount. -/
theorem ext4_mount_badmagic (d : BlockDevice) (st : AllocSt) (sbBytes : List Nat)
    (hsb : blockdev_read d EXT4_SUPERBLOCK_OFFSET 1024 = some sbBytes)
    (hmag : (parseSuperblock sbBytes).s_magic ≠ EXT4_SUPER_MAGIC) :
    (ext4_mount d st).1 = none := by
  unfold ext4_mount
  split
  · rfl
  · split
    · rfl
    · split
      · rfl
      · rename_i sbB heqR
        rw [heqR] at hsb
        cases Option.some.inj hsb
        simp only []
        split
        · rfl
        · rename_i hm
          exact absurd hmag hm

end FreeCore

namespace FreeCore

set_option maxRecDepth 100000

/-- An all-zero, never-failing device: its superblock magic parses as 0. -/
def dev0 : BlockDevice := { data := fun _ => 0, fail := fun _ _ => false }

/-- C5: a device whose superblock magic is not 0xEF53 fails to mount, and
every failing mount — any device read failure at the superblock,
descriptor-table, or root-inode stage, and any allocation failure — frees
everything it allocated: the live-allocation list after a failed mount is
exactly the list before the call, so no filesystem state is retained. -/
theorem C5_mount_failure_cleanup :
    (∀ (d : BlockDevice) (st : AllocSt) (sbBytes : List Nat),
      blockdev_read d EXT4_SUPERBLOCK_OFFSET 1024 = some sbBytes →
      (parseSuperblock sbBytes).s_magic ≠ EXT4_SUPER_MAGIC →
      (ext4_mount d st).1 = none ∧ (ext4_mount d st).2.live = st.live) ∧
    (∀ (d : BlockDevice) (st : AllocSt),
      (ext4_mount d st).1 = none → (ext4_mount d st).2.live = st.live) :=
  ⟨fun d st sbBytes hsb hmag =>
    have hn := ext4_mount_badmagic d st sbBytes hsb hmag
    ⟨hn, ext4_mount_none_live d st hn⟩,
   fun d st h => ext4_mount_none_live d st h⟩

/-- C5 witness: mounting the all-zero device fails on the magic check and
leaves the (empty) live list unchanged. -/
theorem C5_witness :
    blockdev_read dev0 EXT4_SUPERBLOCK_OFFSET 1024
      = some ((List.range 1024).map fun _ => 0) ∧
    (parseSuperblock ((List.range 1024).map fun _ => 0)).s_magic
      ≠ EXT4_SUPER_MAGIC ∧
    ((ext4_mount dev0 st0).1 = none ∧ (ext4_mount dev0 st0).2.live = st0.live) ∧
    (ext4_mount dev0 st0).2.live = st0.live :=
  ⟨by decide, by decide,
   C5_mount_failure_cleanup.1 dev0 st0 ((List.range 1024).map fun _ => 0)
     (by decide) (by decide),
   C5_mount_failure_cleanup.2 dev0 st0 (by rfl)⟩

end FreeCore
